import Mathlib

/-!
Shallow embedding of the core of `trace_viewer/trace_parser.py` (class
`TraceParser`): the event data model, the pure register reconstruction,
the effective-address resolver, the memory-effect precomputation with the
store-address index, the instruction classifiers, the forward and backward
taint engines, the call annotator, and the stateful (cached) register
reconstructor.  Python strings are modelled as `List Char`; Python dicts
as insertion-ordered association lists; Python sets as `Finset`.
The optional native decoder module (`trace_viewer.decoders`) is absent from
the repository, so `get_decoder is None` and every decoder branch falls
back to the string-based logic; the embedding models that fallback only.
-/

namespace UTV

/-! ### Python string primitives over `List Char` -/

/-- Python `str.isspace` for a single character, restricted to the ASCII
whitespace that can appear in trace lines. -/
def isWs (c : Char) : Bool :=
  c == ' ' || c == '\t' || c == '\n' || c == '\r' || c == '\x0b' || c == '\x0c'

/-- Python regex `\w` class: `[a-zA-Z0-9_]`. -/
def isWord (c : Char) : Bool :=
  c.isAlpha || c.isDigit || c == '_'

/-- Python `str.startswith`. -/
def startsW : List Char → List Char → Bool
  | [], _ => true
  | _ :: _, [] => false
  | a :: as, b :: bs => a == b && startsW as bs

/-- Python `in` on strings (substring containment). -/
def hasSub (p s : List Char) : Bool :=
  match s with
  | [] => startsW p []
  | _ :: t => startsW p s || hasSub p t

/-- Python `str.strip()` (no arguments: strips whitespace on both ends). -/
def pyStrip (s : List Char) : List Char :=
  ((s.dropWhile isWs).reverse.dropWhile isWs).reverse

/-- Python `str.lower()` (ASCII). -/
def pyLower (s : List Char) : List Char :=
  s.map Char.toLower

/-- Python `str.lstrip(cs)` for a single strip character. -/
def pyLStripC (c : Char) (s : List Char) : List Char :=
  s.dropWhile (· == c)

/-- Python `str.rstrip(cs)` for a single strip character. -/
def pyRStripC (c : Char) (s : List Char) : List Char :=
  (s.reverse.dropWhile (· == c)).reverse

/-- Python `str.endswith` for a single character. -/
def endsW (c : Char) (s : List Char) : Bool :=
  match s.getLast? with
  | some d => d == c
  | none => false

/-- Python `str.split()` with no argument: split on runs of whitespace,
dropping empty fields. -/
def pySplitWs (s : List Char) : List (List Char) :=
  (s.foldr
    (fun c acc =>
      if isWs c then [] :: acc
      else
        match acc with
        | [] => [[c]]
        | w :: ws => (c :: w) :: ws)
    []).filter (fun w => !w.isEmpty)

/-- Python `str.split(sep)` for a one-character separator: keeps empty
fields, always returns at least one field. -/
def pySplitC (sep : Char) (s : List Char) : List (List Char) :=
  s.foldr
    (fun c acc =>
      if c == sep then [] :: acc
      else
        match acc with
        | [] => [[c]]
        | w :: ws => (c :: w) :: ws)
    [[]]

/-- Python `str.split(None, 1)`: skip leading whitespace, take the first
token, then the remainder with the separating whitespace removed. -/
def pySplit1 (s : List Char) : List (List Char) :=
  let t := s.dropWhile isWs
  if t.isEmpty then []
  else
    let w := t.takeWhile (fun c => !isWs c)
    let rest := (t.dropWhile (fun c => !isWs c)).dropWhile isWs
    if rest.isEmpty then [w] else [w, rest]

/-- Python `str.find(c)`: index of the first occurrence, or `none` for -1. -/
def pyFindC (c : Char) (s : List Char) : Option Nat :=
  s.findIdx? (· == c)

/-- Python `str.find(c, start)`: first occurrence at or after `start`. -/
def pyFindCFrom (c : Char) (s : List Char) (start : Nat) : Option Nat :=
  ((s.drop start).findIdx? (· == c)).map (· + start)

/-- Python slice `s[a:b]`. -/
def pySlice (s : List Char) (a b : Nat) : List Char :=
  (s.take b).drop a

/-- Numeric value of a hex digit (48, 97 and 65 are the codes of the
characters `0`, `a` and `A`). -/
def hexVal (c : Char) : Option Nat :=
  if c.isDigit then some (c.toNat - 48)
  else if 'a' ≤ c && c ≤ 'f' then some (c.toNat - 97 + 10)
  else if 'A' ≤ c && c ≤ 'F' then some (c.toNat - 65 + 10)
  else none

/-- Parse a non-empty string of hex digits (most significant first). -/
def parseHexDigits (s : List Char) : Option Nat :=
  match s with
  | [] => none
  | _ =>
    s.foldl
      (fun acc c =>
        match acc, hexVal c with
        | some a, some d => some (a * 16 + d)
        | _, _ => none)
      (some 0)

/-- Parse a non-empty string of decimal digits. -/
def parseDecDigits (s : List Char) : Option Nat :=
  match s with
  | [] => none
  | _ =>
    s.foldl
      (fun acc c =>
        if c.isDigit then
          match acc with
          | some a => some (a * 10 + (c.toNat - '0'.toNat))
          | none => none
        else none)
      (some 0)

/-- Python `int(t, 16)`: optional sign, optional `0x`/`0X`, hex digits. -/
def pyInt16 (t : List Char) : Option Int :=
  let (neg, u) :=
    match t with
    | '-' :: r => (true, r)
    | '+' :: r => (false, r)
    | r => (false, r)
  let u := if startsW ['0', 'x'] u || startsW ['0', 'X'] u then u.drop 2 else u
  (parseHexDigits u).map (fun n => if neg then -(n : Int) else (n : Int))

/-- Python `int(t, 10)`: optional sign, decimal digits. -/
def pyInt10 (t : List Char) : Option Int :=
  let (neg, u) :=
    match t with
    | '-' :: r => (true, r)
    | '+' :: r => (false, r)
    | r => (false, r)
  (parseDecDigits u).map (fun n => if neg then -(n : Int) else (n : Int))

/-- Python `int(t, 0)`: optional sign, then `0x...` hex, a bare `0`, or
decimal with no leading zero. -/
def pyInt0 (t : List Char) : Option Int :=
  let (neg, u) :=
    match t with
    | '-' :: r => (true, r)
    | '+' :: r => (false, r)
    | r => (false, r)
  let mag : Option Nat :=
    if startsW ['0', 'x'] u || startsW ['0', 'X'] u then parseHexDigits (u.drop 2)
    else
      match u with
      | ['0'] => some 0
      | '0' :: _ :: _ => none
      | _ => parseDecDigits u
  mag.map (fun n => if neg then -(n : Int) else (n : Int))

/-- 2^32, the address-space modulus used throughout the parser
(`& 0xFFFFFFFF`). -/
def M32 : Nat := 4294967296

/-- Insert into a sorted list of naturals. -/
def insSorted (a : Nat) : List Nat → List Nat
  | [] => [a]
  | b :: t => if a ≤ b then a :: b :: t else b :: insSorted a t

/-- Python `list.sort()` on naturals (any sorting algorithm produces the
same list for a total order on `Nat`). -/
def sortNat : List Nat → List Nat
  | [] => []
  | a :: t => insSorted a (sortNat t)

/-! ### Data model: events and register maps

`TraceEvent` fields relevant to the analysed core.  The `effaddr`,
`mem_op`, `mem_width` fields are populated by `_precompute_memory_effects`
after parsing; the embedding carries them in a separate `MemFx` record so
that events stay immutable.  Register names are `List Char` (lowercased on
ingest by `_parse_regs`); register values are arbitrary naturals (Python
ints parsed from hex). -/

structure Event where
  line_no : Nat
  pc : Nat
  asm : List Char
  reads : List (List Char × Nat)
  writes : List (List Char × Nat)
  call_id : Nat := 0
  call_depth : Nat := 0
deriving DecidableEq, Repr

/-- A Python dict keyed by register name: insertion-ordered association
list with unique keys maintained by the update operations. -/
abbrev RegMap := List (List Char × Nat)

/-- Python dict lookup `d.get(k)`. -/
def rmGet (m : RegMap) (k : List Char) : Option Nat :=
  match m with
  | [] => none
  | (k', v) :: t => if k' = k then some v else rmGet t k

/-- Python dict store `d[k] = v`: replaces in place, else appends. -/
def rmSet (m : RegMap) (k : List Char) (v : Nat) : RegMap :=
  match m with
  | [] => [(k, v)]
  | (k', v') :: t => if k' = k then (k, v) :: t else (k', v') :: rmSet t k v

/-- Python `d.setdefault(k, v)` (as used by the reads fill-in rule:
`if k not in regs: regs[k] = v`). -/
def rmSetD (m : RegMap) (k : List Char) (v : Nat) : RegMap :=
  if (rmGet m k).isSome then m else m ++ [(k, v)]

/-- Membership of a key in a dict (`k in d`). -/
def dictHas (m : List (List Char × Nat)) (k : List Char) : Bool :=
  m.any (fun kv => kv.1 == k)

/-- `TraceParser._apply_writes`: first fill in unknown registers from the
observed reads (`setdefault`), then apply all writes. -/
def applyEvent (m : RegMap) (ev : Event) : RegMap :=
  ev.writes.foldl (fun m kv => rmSet m kv.1 kv.2)
    (ev.reads.foldl (fun m kv => rmSetD m kv.1 kv.2) m)

/-- The register state after event `i` has executed, obtained by replaying
all events `0..i` from the empty state.  `reconstruct_regs_at` computes
exactly this map (theorems below); the checkpoints and caches only
accelerate it. -/
def pureRegsAt (events : List Event) (i : Nat) : RegMap :=
  (events.take (i + 1)).foldl applyEvent []

/-! ### Register aliases (`TraceParser._alias_names`) -/

/-- `_alias_names`: for ARM64, `xN`/`wN` are aliases of each other; any
other name is returned alone.  The internal memo cache is transparent. -/
def aliasCore (n : List Char) : List (List Char) :=
  match n with
  | 'x' :: rest =>
    if rest ≠ [] && rest.all Char.isDigit then ['x' :: rest, 'w' :: rest]
    else ['x' :: rest]
  | 'w' :: rest =>
    if rest ≠ [] && rest.all Char.isDigit then ['w' :: rest, 'x' :: rest]
    else ['w' :: rest]
  | _ => [n]

/-- `_alias_names`: for ARM64, `xN` and `wN` are aliases of each other; any
other name is returned alone.  The internal memo cache is transparent. -/
def aliasNames (name : List Char) : List (List Char) :=
  aliasCore (pyLower (pyStrip name))

/-- `TraceParser._has_write`: the register or any alias appears in the
event's writes. -/
def hasWrite (ev : Event) (reg : List Char) : Bool :=
  let r := pyLower reg
  dictHas ev.writes r || (aliasNames r).any (fun a => dictHas ev.writes a)

/-! ### Effective-address resolver (`TraceParser.effective_address`)

The decoder module is absent, the LRU cache is a transparent memo of this
computation, and `ev.effaddr` (when precomputed) stores this same value,
so the resolver is modelled as a pure function of the frozen event list.
The unified `base + (index << shift) + imm` branch always returns (its
`try` body cannot raise), so the legacy single-register fallback after it
is dead code and not modelled.  The parsed post-index immediate is never
used for the current access and is omitted. -/

def effAddr (events : List Event) (i : Nat) : Option Nat :=
  match events.get? i with
  | none => none
  | some ev =>
    let asm := pyLower ev.asm
    if !(startsW "str".data asm || startsW "ldr".data asm) then none
    else
      match pyFindC '[' asm with
      | none => none
      | some lb =>
        match pyFindCFrom ']' asm (lb + 1) with
        | none => none
        | some rb =>
          let expr := pyStrip (pySlice asm (lb + 1) rb)
          let regs := pureRegsAt events i
          let parts := (pySplitC ',' expr).map pyStrip
          let base := parts.headI
          let imm : Int :=
            if parts.length ≥ 2 && startsW "#".data (parts.getD 1 []) then
              (pyInt0 (pyLStripC '#' (parts.getD 1 []))).getD 0
            else 0
          let index : Option (List Char) :=
            if parts.length ≥ 2 && !startsW "#".data (parts.getD 1 []) then
              some (parts.getD 1 [])
            else none
          let shift : Nat :=
            if index.isSome && parts.length ≥ 3 then
              let md := pyLower (parts.getD 2 [])
              let s1 : Nat :=
                if hasSub "lsl".data md then
                  ((pyInt0 ((pySplitC '#' md).getLastD [])).getD 0).toNat
                else 0
              if hasSub "uxtw".data md || hasSub "sxtw".data md
                  || hasSub "sxtx".data md then
                if hasSub "#".data (parts.getD 2 []) then
                  ((pyInt0 ((pySplitC '#' (parts.getD 2 [])).getLastD
                    [])).getD 0).toNat
                else s1
              else s1
            else 0
          let preIdx := hasSub "!".data (pySlice asm lb (rb + 1))
          let b := rmGet regs (pyLower (pyStrip base))
          let iv : Nat :=
            match index with
            | some ix => (rmGet regs (pyLower (pyStrip ix))).getD 0
            | none => 0
          match b with
          | none => none
          | some bv =>
            some ((((bv : Int) + ((iv : Int) * 2 ^ shift)
              + (if preIdx then imm else 0)) % (M32 : Int)).toNat)

/-! ### Instruction classifiers (`TraceParser._is_*` and operand parsers)

The two generic operand shapes used by `_is_constant_zero_write` are the
Python regexes `^(\w+)\s+(\w+)\s*,\s*([^,]+)$` (two-operand) and
`^(\w+)\s+(\w+)\s*,\s*([^,]+)\s*,\s*(.+)$` (three-operand).  Both are
implemented by maximal-munch scanning, which agrees with the regex because
`\w`, `\s` and the literal `,` are pairwise disjoint character classes.
Captured operand groups are returned already stripped, as every use site
immediately applies `.strip()`. -/

def matchTwoOp (s : List Char) : Option (List Char × List Char × List Char) :=
  let g1 := s.takeWhile isWord
  let r1 := s.dropWhile isWord
  if g1.isEmpty then none
  else if (r1.takeWhile isWs).isEmpty then none
  else
    let r2 := r1.dropWhile isWs
    let g2 := r2.takeWhile isWord
    let r3 := r2.dropWhile isWord
    if g2.isEmpty then none
    else
      match r3.dropWhile isWs with
      | ',' :: rest =>
        if rest.isEmpty || rest.any (fun c => c == ',') then none
        else some (g1, g2, pyStrip rest)
      | _ => none

structure M3 where
  op : List Char
  g2 : List Char
  g3 : List Char
  g4 : List Char
deriving DecidableEq, Repr

def matchThreeOp (s : List Char) : Option M3 :=
  let g1 := s.takeWhile isWord
  let r1 := s.dropWhile isWord
  if g1.isEmpty then none
  else if (r1.takeWhile isWs).isEmpty then none
  else
    let r2 := r1.dropWhile isWs
    let g2 := r2.takeWhile isWord
    let r3 := r2.dropWhile isWord
    if g2.isEmpty then none
    else
      match r3.dropWhile isWs with
      | ',' :: rest =>
        let g3 := rest.takeWhile (fun c => c != ',')
        let r5 := rest.dropWhile (fun c => c != ',')
        if g3.isEmpty then none
        else
          match r5 with
          | ',' :: g4 =>
            if g4.isEmpty then none else some ⟨g1, g2, pyStrip g3, pyStrip g4⟩
          | _ => none
      | _ => none

/-- `_is_zero_imm` inside `_is_constant_zero_write`: strip `#` marks and
test for numeric zero (base 16 when `0x`-prefixed, else base 10). -/
def isZeroImm (txt : List Char) : Bool :=
  let t := pyStrip (txt.filter (fun c => c != '#'))
  if startsW "0x".data t then pyInt16 t == some 0
  else pyInt10 t == some 0

/-- `TraceParser._is_immediate_write`. -/
def isImmediateWrite (ev : Event) (reg : List Char) : Bool :=
  dictHas ev.writes reg &&
    (let s := pyLower ev.asm
     hasSub "#".data s &&
       (["mov ", "mvn ", "orr ", "eor ", "and ", "add ", "sub ", "movw",
         "movt", "movz", "movn"].any (fun op => startsW op.data s)))

/-- `TraceParser._is_constant_zero_write`. -/
def isConstantZeroWrite (ev : Event) (reg : List Char) : Bool :=
  if !dictHas ev.writes reg then false
  else
    let s := pyStrip (pyLower ev.asm)
    let m2 := matchTwoOp s
    let m3 := matchThreeOp s
    let movZr : Bool :=
      match m2 with
      | some (op, g2, g3) =>
        op == "mov".data && g2 == reg && (g3 == "xzr".data || g3 == "wzr".data)
      | none => false
    let andZero : Bool :=
      match m3 with
      | some m => m.op == "and".data && m.g2 == reg && isZeroImm m.g4
      | none => false
    let mulZero : Bool :=
      match m3 with
      | some m =>
        (m.op == "mul".data || m.op == "mla".data || m.op == "mls".data) &&
          m.g2 == reg && (isZeroImm m.g4 || m.g4 == "xzr".data || m.g4 == "wzr".data)
      | none => false
    let eorSame : Bool :=
      match m3 with
      | some m =>
        let rn := pyRStripC ',' m.g3
        let rm0 := m.g4
        let rm := if endsW ',' rm0 then pyStrip rm0.dropLast else rm0
        m.g2 == reg && rm == rn &&
          (m.op == "eor".data || m.op == "sub".data || m.op == "rsb".data ||
            m.op == "bic".data)
      | none => false
    movZr || andZero || mulZero || eorSame

/-- `TraceParser._get_mem_access_width`: width from the mnemonic suffix
(`b`→1, `h`→2, `d`→8, default 4). -/
def getMemAccessWidth (asm : List Char) : Nat :=
  let s := pyStrip (pyLower asm)
  let mnem := (pySplitWs s).headD []
  if endsW 'b' mnem then 1
  else if endsW 'h' mnem then 2
  else if endsW 'd' mnem then 8
  else 4

/-- `TraceParser._mark_memory_tainted`: taint each byte of the accessed
range, addresses reduced mod 2^32. -/
def markMem (mem : Finset Nat) (baseAddr width : Nat) : Finset Nat :=
  (List.range width).foldl (fun m off => insert ((baseAddr % M32 + off) % M32) m) mem

/-- `TraceParser._check_memory_tainted`: is any byte of the range tainted? -/
def checkMem (mem : Finset Nat) (baseAddr width : Nat) : Bool :=
  (List.range width).any (fun off => decide (((baseAddr % M32 + off) % M32) ∈ mem))

/-- `TraceParser._is_partial_bitfield_clear` (asm starts with `bfc `). -/
def isPartialBitfieldClear (ev : Event) (reg : List Char) : Bool :=
  dictHas ev.writes reg && startsW "bfc ".data (pyStrip (pyLower ev.asm))

/-- `TraceParser._is_conditional_select_op`. -/
def isCondSelectOp (asm : List Char) : Bool :=
  let s := pyStrip (pyLower asm)
  ["csel ", "csinc ", "csinv ", "csneg "].any (fun op => startsW op.data s)

/-- `TraceParser._is_conditional_set_op`. -/
def isCondSetOp (asm : List Char) : Bool :=
  let s := pyStrip (pyLower asm)
  ["cset ", "csetm "].any (fun op => startsW op.data s)

/-- `TraceParser._is_movk_op`. -/
def isMovkOp (asm : List Char) : Bool :=
  startsW "movk ".data (pyStrip (pyLower asm))

/-- `TraceParser._is_madd_op`. -/
def isMaddOp (asm : List Char) : Bool :=
  let s := pyStrip (pyLower asm)
  ["madd ", "msub ", "smaddl ", "umaddl ", "smsubl ", "umsubl "].any
    (fun op => startsW op.data s)

/-- `TraceParser._is_adrp_op`. -/
def isAdrpOp (asm : List Char) : Bool :=
  startsW "adrp ".data (pyStrip (pyLower asm))

/-- Register-name token `[rxw][0-9]{1,2}` followed by a non-digit
context (comma/bracket after optional spaces), so a longer digit run can
never match.  Returns the token and the rest of the input. -/
def parseRegTok12 (s : List Char) : Option (List Char × List Char) :=
  match s with
  | c :: rest =>
    if c == 'r' || c == 'x' || c == 'w' then
      let ds := rest.takeWhile Char.isDigit
      if ds.isEmpty || ds.length > 2 then none
      else some (c :: ds, rest.drop ds.length)
    else none
  | [] => none

/-- Register-name token `[xw]\d+` (any number of digits). -/
def parseRegTokXW (s : List Char) : Option (List Char × List Char) :=
  match s with
  | c :: rest =>
    if c == 'x' || c == 'w' then
      let ds := rest.takeWhile Char.isDigit
      if ds.isEmpty then none else some (c :: ds, rest.drop ds.length)
    else none
  | [] => none

/-- ARM32 register vocabulary accepted as single names in a register
list. -/
def regListNames : List (List Char) :=
  ["r0", "r1", "r2", "r3", "r4", "r5", "r6", "r7", "r8", "r9", "r10",
   "r11", "r12", "r13", "r14", "r15", "sp", "lr", "pc", "cpsr"].map (·.data)

/-- Single-register item `^[xw]\d{1,2}$`. -/
def matchXW12 (part : List Char) : Bool :=
  match part with
  | c :: rest =>
    (c == 'x' || c == 'w') && !rest.isEmpty && rest.length ≤ 2 &&
      rest.all Char.isDigit
  | [] => false

/-- Range item `([rxw])(\d+)-([rxw])(\d+)` (anchored at the start of the
part, trailing text permitted; the second prefix letter is ignored, as in
the source).  Expands to `prefix ++ i` for `i` in `start..end`. -/
def parseRange (part : List Char) : List (List Char) :=
  match part with
  | c1 :: rest =>
    if c1 == 'r' || c1 == 'x' || c1 == 'w' then
      let d1 := rest.takeWhile Char.isDigit
      let r2 := rest.dropWhile Char.isDigit
      if d1.isEmpty then []
      else
        match r2 with
        | '-' :: c2 :: rest2 =>
          if c2 == 'r' || c2 == 'x' || c2 == 'w' then
            let d2 := rest2.takeWhile Char.isDigit
            if d2.isEmpty then []
            else
              match parseDecDigits d1, parseDecDigits d2 with
              | some a, some b =>
                (List.range' a (b + 1 - a)).map (fun n => c1 :: (Nat.repr n).data)
              | _, _ => []
          else []
        | _ => []
    else []
  | [] => []

/-- `TraceParser._parse_register_list`: expand `{...}` operand lists.
`re.search(r'\{([^}]+)\}', s)` is modelled as the first `{` with a
following `}` and a non-empty body (trace operands contain at most one
brace group). -/
def parseRegisterList (asm : List Char) : List (List Char) :=
  let s := pyStrip (pyLower asm)
  match pyFindC '{' s with
  | none => []
  | some lb =>
    match pyFindCFrom '}' s (lb + 1) with
    | none => []
    | some rb =>
      let rawContent := pySlice s (lb + 1) rb
      if rawContent.isEmpty then []
      else
        (pySplitC ',' (pyStrip rawContent)).foldl
          (fun regs part0 =>
            let part := pyStrip part0
            if part.any (fun c => c == '-') then regs ++ parseRange part
            else if regListNames.any (fun n => n == part) || matchXW12 part then
              regs ++ [part]
            else regs)
          []

/-- `TraceParser._parse_dual_regs`:
`^(strd|ldrd)\s+([rxw]\d{1,2})\s*,\s*([rxw]\d{1,2})\s*,\s*\[`. -/
def parseDualRegs (asm : List Char) : Option (List Char × List Char) :=
  let s := pyStrip (pyLower asm)
  let tl? : Option (List Char) :=
    if startsW "strd".data s then some (s.drop 4)
    else if startsW "ldrd".data s then some (s.drop 4)
    else none
  match tl? with
  | none => none
  | some r0 =>
    if (r0.takeWhile isWs).isEmpty then none
    else
      match parseRegTok12 (r0.dropWhile isWs) with
      | none => none
      | some (reg1, r1) =>
        match r1.dropWhile isWs with
        | ',' :: r2 =>
          match parseRegTok12 (r2.dropWhile isWs) with
          | none => none
          | some (reg2, r3) =>
            match r3.dropWhile isWs with
            | ',' :: r4 =>
              match r4.dropWhile isWs with
              | '[' :: _ => some (reg1, reg2)
              | _ => none
            | _ => none
        | _ => none

/-- `TraceParser._parse_csel_operands`:
`^cs(?:el|inc|inv|neg)\s+([xw]\d+)\s*,\s*([xw]\d+)\s*,\s*([xw]\d+)\s*,`. -/
def parseCselOperands (asm : List Char) :
    Option (List Char × List Char × List Char) :=
  let s := pyStrip (pyLower asm)
  let tl? : Option (List Char) :=
    if startsW "csel".data s then some (s.drop 4)
    else if startsW "csinc".data s then some (s.drop 5)
    else if startsW "csinv".data s then some (s.drop 5)
    else if startsW "csneg".data s then some (s.drop 5)
    else none
  match tl? with
  | none => none
  | some r0 =>
    if (r0.takeWhile isWs).isEmpty then none
    else
      match parseRegTokXW (r0.dropWhile isWs) with
      | none => none
      | some (rd, r1) =>
        match r1.dropWhile isWs with
        | ',' :: r2 =>
          match parseRegTokXW (r2.dropWhile isWs) with
          | none => none
          | some (rn, r3) =>
            match r3.dropWhile isWs with
            | ',' :: r4 =>
              match parseRegTokXW (r4.dropWhile isWs) with
              | none => none
              | some (rm, r5) =>
                match r5.dropWhile isWs with
                | ',' :: _ => some (rd, rn, rm)
                | _ => none
            | _ => none
        | _ => none

/-- Character class of `^[smu]*[madd|msub|maddl|msubl]+` in
`_parse_madd_operands` (a bracket expression is a character class, so
this is a run of characters drawn from `{m,a,d,s,u,b,l,|}`, preceded by
an absorbed `[smu]*` run). -/
def maddClass (c : Char) : Bool :=
  c == 'm' || c == 'a' || c == 'd' || c == 's' || c == 'u' || c == 'b' ||
    c == 'l' || c == '|'

/-- `TraceParser._parse_madd_operands`. -/
def parseMaddOperands (asm : List Char) :
    Option (List Char × List Char × List Char × List Char) :=
  let s := pyStrip (pyLower asm)
  let mn := s.takeWhile maddClass
  if mn.isEmpty then none
  else
    let r0 := s.dropWhile maddClass
    if (r0.takeWhile isWs).isEmpty then none
    else
      match parseRegTokXW (r0.dropWhile isWs) with
      | none => none
      | some (rd, r1) =>
        match r1.dropWhile isWs with
        | ',' :: r2 =>
          match parseRegTokXW (r2.dropWhile isWs) with
          | none => none
          | some (rn, r3) =>
            match r3.dropWhile isWs with
            | ',' :: r4 =>
              match parseRegTokXW (r4.dropWhile isWs) with
              | none => none
              | some (rm, r5) =>
                match r5.dropWhile isWs with
                | ',' :: r6 =>
                  match parseRegTokXW (r6.dropWhile isWs) with
                  | none => none
                  | some (ra, _) => some (rd, rn, rm, ra)
                | _ => none
            | _ => none
        | _ => none

/-- `TraceParser._parse_store_value_reg`:
`^str\w*\s+([rxw][0-9]{1,2})\s*,\s*\[` after a `startswith('str')` guard. -/
def parseStoreValueReg (asm : List Char) : Option (List Char) :=
  let s := pyStrip (pyLower asm)
  if !startsW "str".data s then none
  else
    let afterMnem := (s.drop 3).dropWhile isWord
    if (afterMnem.takeWhile isWs).isEmpty then none
    else
      match parseRegTok12 (afterMnem.dropWhile isWs) with
      | none => none
      | some (reg, r1) =>
        match r1.dropWhile isWs with
        | ',' :: r2 =>
          match r2.dropWhile isWs with
          | '[' :: _ => some reg
          | _ => none
        | _ => none

/-! ### Memory-effect precomputation and the store-address index
(`TraceParser._precompute_memory_effects`) -/

/-- The `store_addr_index` dict: address → list of event indices. -/
abbrev StoreIdx := List (Nat × List Nat)

def siGet (si : StoreIdx) (a : Nat) : Option (List Nat) :=
  match si with
  | [] => none
  | (a', l) :: t => if a' = a then some l else siGet t a

/-- Event index `i` is recorded in the per-address list of `a`. -/
def siMem (si : StoreIdx) (a i : Nat) : Prop :=
  ∃ l, siGet si a = some l ∧ i ∈ l

/-- `store_addr_index.setdefault(a2, []).append(idx)`. -/
def siAppend (si : StoreIdx) (a : Nat) (i : Nat) : StoreIdx :=
  match si with
  | [] => [(a, [i])]
  | (a', l) :: t => if a' = a then (a', l ++ [i]) :: t else (a', l) :: siAppend t a i

/-- The per-event fields populated by `_precompute_memory_effects`. -/
structure MemFx where
  effaddr : Option Nat := none
  mem_op : List Char := []
  mem_width : Nat := 0
deriving DecidableEq, Repr, Inhabited

/-- The width computation inlined in `_precompute_memory_effects` (note:
unlike `_get_mem_access_width` it has no `d` suffix case; only `ldrb/strb`
and `ldrh/strh` are special-cased, then the width of the first register
operand decides). -/
def precomputeWidth (ev : Event) : Nat :=
  let s := pyLower ev.asm
  let mnem := (pySplitWs s).headD []
  if startsW "ldrb".data mnem || startsW "strb".data mnem then 1
  else if startsW "ldrh".data mnem || startsW "strh".data mnem then 2
  else
    match pySplit1 ev.asm with
    | _ :: opsTxt :: _ =>
      let firstOp := pyStrip ((pySplitC ',' opsTxt).headD [])
      if startsW "x".data firstOp then 8 else 4
    | _ => 4

/-- One event's contribution to the precomputation. -/
def precomputeOne (events : List Event) (acc : List MemFx × StoreIdx)
    (i : Nat) : List MemFx × StoreIdx :=
  match events.get? i with
  | none => acc
  | some ev =>
    let s := pyLower ev.asm
    if !(startsW "ldr".data s || startsW "str".data s) then
      (acc.1 ++ [{}], acc.2)
    else
      let addr := effAddr events i
      let fx : MemFx :=
        { effaddr := addr
          mem_op := if startsW "ldr".data s then "ldr".data else "str".data
          mem_width := precomputeWidth ev }
      let si :=
        match addr with
        | some a =>
          if startsW "str".data s then
            let span := max 1 fx.mem_width
            (List.range span).foldl
              (fun si off => siAppend si ((a % M32 + off) % M32) i) acc.2
          else acc.2
        | none => acc.2
      (acc.1 ++ [fx], si)

/-- `_precompute_memory_effects`: per-event `effaddr/mem_op/mem_width`
plus the byte-spanning store-address index, whose per-address lists are
sorted at the end (`lst.sort()`). -/
def precomputeFx (events : List Event) : List MemFx × StoreIdx :=
  let built := (List.range events.length).foldl (precomputeOne events) ([], [])
  (built.1, built.2.map (fun al => (al.1, sortNat al.2)))

/-- `TraceParser._is_load_from_const_memory` (post-precompute, so the
bisect over the sorted per-address list is the count of indices `< i`). -/
def isLoadFromConstMemory (events : List Event) (si : StoreIdx) (i : Nat)
    (reg : List Char) : Bool :=
  match events.get? i with
  | none => false
  | some ev =>
    let s := pyLower ev.asm
    if !startsW "ldr".data s || !hasWrite ev reg then false
    else
      match effAddr events i with
      | none => false
      | some addr =>
        match siGet si addr with
        | none => true
        | some [] => true
        | some lst => decide ((lst.filter (· < i)).length = 0)

/-- `TraceParser._is_constant_pool_load`. -/
def isConstantPoolLoad (events : List Event) (si : StoreIdx) (i : Nat)
    (reg : List Char) : Bool :=
  match events.get? i with
  | none => false
  | some ev =>
    let s := pyLower ev.asm
    if !startsW "ldr".data s || !hasWrite ev reg then false
    else if hasSub "pc".data s then true
    else isLoadFromConstMemory events si i reg

/-! ### Forward taint engine (`TraceParser.taint_forward`)

Taint state: a set of register names and a set of tainted byte addresses.
The engine's calls to `self.effective_address(i)` go through the
transparent LRU memo of the pure resolver, so they are modelled by
`effAddr` directly.  The `enable_memory_taint` / `enable_implicit_flow`
parameters of `taint_forward` are never read in its body and are omitted. -/

/-- `for a in alias_names(r): if a not in s: s.add(a)`. -/
def addAliases (S : Finset (List Char)) (r : List Char) : Finset (List Char) :=
  (aliasNames r).foldl (fun s a => insert a s) S

/-- `for a in alias_names(r): if a in s: s.discard(a)`. -/
def delAliases (S : Finset (List Char)) (r : List Char) : Finset (List Char) :=
  (aliasNames r).foldl (fun s a => s.erase a) S

/-- `r in tainted_regs or any(a in tainted_regs for a in alias_names(r))`. -/
def regTainted (T : Finset (List Char)) (r : List Char) : Bool :=
  decide (r ∈ T) || (aliasNames r).any (fun a => decide (a ∈ T))

/-- The `propagated` flag of the write-propagation loop: a tainted read
register (alias-closed) or, for a load, tainted bytes in the accessed
range. -/
def fwdPropagated (asm : List Char) (eff : Option Nat) (mem : Finset Nat)
    (T : Finset (List Char)) (reads : List (List Char × Nat)) : Bool :=
  if reads.any (fun kv => regTainted T kv.1) then true
  else if startsW "ldr".data asm then
    match eff with
    | some a => checkMem mem a (getMemAccessWidth asm)
    | none => false
  else false

/-- One written register `rd` in the write-propagation loop of
`taint_forward` (state: tainted registers × used flag).  Note that in the
constant-zero, immediate-write, constant-pool, cset and adrp branches the
source sets `used = True` inside the alias loop but outside the
membership test, so those branches mark the event used even when nothing
was tainted. -/
def fwdWriteOne (events : List Event) (si : StoreIdx) (i : Nat) (ev : Event)
    (asm : List Char) (eff : Option Nat) (mem : Finset Nat)
    (acc : Finset (List Char) × Bool) (rd : List Char) :
    Finset (List Char) × Bool :=
  if isConstantZeroWrite ev rd then (delAliases acc.1 rd, true)
  else if fwdPropagated asm eff mem acc.1 ev.reads then (addAliases acc.1 rd, true)
  else if isImmediateWrite ev rd then (delAliases acc.1 rd, true)
  else if isConstantPoolLoad events si i rd then (delAliases acc.1 rd, true)
  else if isPartialBitfieldClear ev rd then
    (acc.1, acc.2 || (aliasNames rd).any (fun a => decide (a ∈ acc.1)))
  else if isCondSetOp asm then (delAliases acc.1 rd, true)
  else if isAdrpOp asm then (delAliases acc.1 rd, true)
  else if isMovkOp asm then
    (acc.1, acc.2 || (aliasNames rd).any (fun a => decide (a ∈ acc.1)))
  else acc

/-- The `str` store-propagation step of `taint_forward`. -/
def fwdStore (events : List Event) (i : Nat) (asm : List Char)
    (T : Finset (List Char)) (mem : Finset Nat) (used : Bool) :
    Finset Nat × Bool :=
  if startsW "str".data asm then
    match effAddr events i with
    | some a =>
      match parseStoreValueReg asm with
      | some src =>
        if regTainted T src then (markMem mem a (getMemAccessWidth asm), true)
        else (mem, used)
      | none => (mem, used)
    | none => (mem, used)
  else (mem, used)

/-- The multi-register block of `taint_forward`
(`push`/`pop`/`stm`/`ldm`/`strd`/`ldrd`, an if/elif chain). -/
def fwdMulti (events : List Event) (i : Nat) (asm : List Char)
    (T : Finset (List Char)) (mem : Finset Nat) (used : Bool) :
    Finset (List Char) × Finset Nat × Bool :=
  if startsW "push ".data asm then
    (T, mem, used || (parseRegisterList asm).any (fun r => regTainted T r))
  else if startsW "pop ".data asm then
    if decide mem.Nonempty then
      let rl := parseRegisterList asm
      (rl.foldl addAliases T, mem, used || !rl.isEmpty)
    else (T, mem, used)
  else if startsW "stm".data asm then
    (T, mem, used || (parseRegisterList asm).any (fun r => regTainted T r))
  else if startsW "ldm".data asm then
    if decide mem.Nonempty then
      let rl := parseRegisterList asm
      (rl.foldl addAliases T, mem, used || !rl.isEmpty)
    else (T, mem, used)
  else if startsW "strd ".data asm then
    match parseDualRegs asm with
    | some (r1, r2) =>
      if regTainted T r1 || regTainted T r2 then
        match effAddr events i with
        | some a => (T, markMem mem a 8, true)
        | none => (T, mem, true)
      else (T, mem, used)
    | none => (T, mem, used)
  else if startsW "ldrd ".data asm then
    match parseDualRegs asm with
    | some (r1, r2) =>
      match effAddr events i with
      | some a =>
        if checkMem mem a 8 then (addAliases (addAliases T r1) r2, mem, true)
        else (T, mem, used)
      | none => (T, mem, used)
    | none => (T, mem, used)
  else (T, mem, used)

/-- The ARM64 block of `taint_forward` (`csel`-family then `madd`-family,
an if/elif chain). -/
def fwdArm64 (asm : List Char) (T : Finset (List Char)) (used : Bool) :
    Finset (List Char) × Bool :=
  if isCondSelectOp asm then
    match parseCselOperands asm with
    | some (rd, rn, rm) =>
      if regTainted T rn || regTainted T rm then (addAliases T rd, true)
      else (T, used)
    | none => (T, used)
  else if isMaddOp asm then
    match parseMaddOperands asm with
    | some (rd, rn, rm, ra) =>
      if regTainted T rn || regTainted T rm || regTainted T ra then
        (addAliases T rd, true)
      else (T, used)
    | none => (T, used)
  else (T, used)

/-- Append `i` to the hit list when the event was marked used. -/
def appendIf (b : Bool) (l : List Nat) (i : Nat) : List Nat :=
  if b then l ++ [i] else l

structure FwdSt where
  regs : Finset (List Char)
  mem : Finset Nat
  steps : Nat
  hits : List Nat

/-- One iteration of the `taint_forward` main loop after the call filter
(consumes a step, runs every phase in source order, appends to the hit
list when the event was marked used). -/
def fwdStep (events : List Event) (si : StoreIdx) (st : FwdSt) (i : Nat) :
    FwdSt :=
  match events.get? i with
  | none => st
  | some ev =>
    let asm := pyLower ev.asm
    let used0 := ev.reads.any (fun kv => regTainted st.regs kv.1)
    let eff : Option Nat :=
      if startsW "ldr".data asm then effAddr events i else none
    let used1 := used0 ||
      (startsW "ldr".data asm &&
        (match eff with
         | some a => checkMem st.mem a (getMemAccessWidth asm)
         | none => false))
    let wres := ev.writes.foldl
      (fun acc kv => fwdWriteOne events si i ev asm eff st.mem acc kv.1)
      (st.regs, used1)
    let sres := fwdStore events i asm wres.1 st.mem wres.2
    let mres := fwdMulti events i asm wres.1 sres.1 sres.2
    let ares := fwdArm64 asm mres.1 mres.2.2
    { regs := ares.1, mem := mres.2.1, steps := st.steps + 1,
      hits := appendIf ares.2 st.hits i }

/-- The final `seen`-set deduplication of `taint_forward` (order
preserving). -/
def dedupKeepOrder (l : List Nat) : List Nat :=
  (l.foldl
    (fun (acc : Finset Nat × List Nat) k =>
      if k ∈ acc.1 then acc else (insert k acc.1, acc.2 ++ [k]))
    (∅, [])).2

/-- The loop body of `taint_forward`: budget check, then the
same-call filter (which does not consume a step), then the per-event
processing. -/
def fwdLoopF (events : List Event) (si : StoreIdx) (sameCallOnly : Bool)
    (baseCall maxSteps : Nat) : FwdSt → Nat → FwdSt :=
  fun st i =>
    if st.steps ≥ maxSteps then st
    else
      match events.get? i with
      | none => st
      | some ev =>
        if sameCallOnly && ev.call_id ≠ baseCall then st
        else fwdStep events si st i

/-- The initial tainted-register set of `taint_forward`: the sources,
lowercased and closed over aliases. -/
def fwdInitRegs (sourceRegs : List (List Char)) : Finset (List Char) :=
  sourceRegs.foldl (fun S r => addAliases S (pyLower r)) ∅

/-- `TraceParser.taint_forward`. -/
def taintForward (events : List Event) (startIdx : Nat)
    (sourceRegs : List (List Char)) (sourceMemAddrs : List Nat)
    (sameCallOnly : Bool) (maxSteps : Nat) : List Nat :=
  let si := (precomputeFx events).2
  match events with
  | [] => []
  | _ =>
    let n := events.length
    let i0 := min startIdx (n - 1)
    let mem0 : Finset Nat :=
      (sourceMemAddrs.map (· % M32)).foldl (fun s a => insert a s) ∅
    let baseCall := ((events.get? i0).map Event.call_id).getD 0
    let final := (List.range' i0 (n - i0)).foldl
      (fwdLoopF events si sameCallOnly baseCall maxSteps)
      ⟨fwdInitRegs sourceRegs, mem0, 0, []⟩
    dedupKeepOrder final.hits

/-! ### Backward taint engine (`TraceParser.taint_backward`) -/

/-- The parameter-register vocabulary of `_check_backward_termination`
(ARM32 `r0..r3`, ARM64 `x0..x7`/`w0..w7`). -/
def paramRegs : List (List Char) :=
  (["r0", "r1", "r2", "r3"].map (·.data)) ++
    (List.range 8).map (fun i => 'x' :: (Nat.repr i).data) ++
    (List.range 8).map (fun i => 'w' :: (Nat.repr i).data)

/-- `TraceParser._check_backward_termination`.  The parameter heuristic
only fires for `idx > 50`, scanning the 49 events
`idx-49 .. idx-1` (`range(idx-1, idx-50, -1)`; existence does not depend
on scan order). -/
def checkBackTerm (events : List Event) (si : StoreIdx) (idx : Nat)
    (reg : List Char) : Option String :=
  match events.get? idx with
  | none => none
  | some ev =>
    let asm := pyLower ev.asm
    if dictHas ev.writes reg && isImmediateWrite ev reg then
      let eorZero :=
        if hasSub "eor".data asm then
          let parts := pySplitC ',' asm
          if parts.length ≥ 3 then
            let r1 := pyStrip (parts.getD 1 [])
            let r2 := pyStrip (parts.getD 2 [])
            r1 == r2 && r2 == reg
          else false
        else false
      if eorZero then some "源头·立即数(清零)" else some "源头·立即数"
    else if dictHas ev.writes reg && isConstantPoolLoad events si idx reg then
      some "源头·常量池"
    else if dictHas ev.writes reg && isConstantZeroWrite ev reg then
      some "源头·立即数(清零)"
    else
      let isParam :=
        paramRegs.any (fun p => p == reg) && idx > 50 &&
          !((List.range' (idx - 49) 49).any (fun j =>
            match events.get? j with
            | some evj =>
              dictHas evj.writes reg &&
                (aliasNames reg).any (fun a => dictHas evj.writes a)
            | none => false))
      if isParam then some "源头·参数"
      else if (reg == "r0".data || reg == "x0".data || reg == "w0".data) &&
          idx > 0 &&
          (match events.get? (idx - 1) with
           | some evp => hasSub "svc".data (pyLower evp.asm)
           | none => false) then
        some "源头·系统调用"
      else if startsW "ldr".data asm && dictHas ev.writes reg &&
          hasSub "[sp".data asm then
        some "源头·栈变量"
      else none

structure BwdSt where
  regs : Finset (List Char)
  mem : Finset Nat
  term : Finset (List Char)
  steps : Nat
  hits : List Nat

/-- One written register in the backward write-processing loop. -/
def bwdWriteOne (events : List Event) (si : StoreIdx) (enableMem : Bool)
    (i : Nat) (ev : Event) (asm : List Char)
    (acc : (Finset (List Char) × Finset Nat × Finset (List Char)) × Bool)
    (rd : List Char) :
    (Finset (List Char) × Finset Nat × Finset (List Char)) × Bool :=
  let ((T, mem, term), _used) := acc
  let isTaintedWrite :=
    (aliasNames rd).any (fun a => decide (a ∈ T) && !decide (a ∈ term))
  if isTaintedWrite then
    match checkBackTerm events si i rd with
    | some _ =>
      ((T, mem, (aliasNames rd).foldl (fun s a => insert a s) term), true)
    | none =>
      let T' := ev.reads.foldl (fun T kv => addAliases T kv.1) T
      let mem' :=
        if startsW "ldr".data asm && enableMem then
          match effAddr events i with
          | some a => markMem mem a (getMemAccessWidth asm)
          | none => mem
        else mem
      ((T', mem', term), true)
  else acc

/-- One iteration of the `taint_backward` main loop after the call
filter. -/
def bwdStep (events : List Event) (si : StoreIdx) (enableMem : Bool)
    (st : BwdSt) (i : Nat) : BwdSt :=
  match events.get? i with
  | none => st
  | some ev =>
    let asm := pyLower ev.asm
    let wres := ev.writes.foldl
      (fun acc kv => bwdWriteOne events si enableMem i ev asm acc kv.1)
      ((st.regs, st.mem, st.term), false)
    let T1 := wres.1.1
    let mem1 := wres.1.2.1
    let term1 := wres.1.2.2
    let used2 := wres.2 ||
      ev.reads.any (fun kv =>
        (aliasNames kv.1).any (fun a => decide (a ∈ T1) && !decide (a ∈ term1)))
    let sres :=
      if enableMem && startsW "str".data asm then
        match effAddr events i with
        | some a =>
          if checkMem mem1 a (getMemAccessWidth asm) then
            let Ts :=
              match parseStoreValueReg asm with
              | some src => addAliases T1 src
              | none => T1
            (ev.reads.foldl (fun T kv => addAliases T kv.1) Ts, true)
          else (T1, used2)
        | none => (T1, used2)
      else (T1, used2)
    { regs := sres.1, mem := mem1, term := term1, steps := st.steps + 1,
      hits := appendIf sres.2 st.hits i }

/-- The loop body of `taint_backward`. -/
def bwdLoopF (events : List Event) (si : StoreIdx) (enableMem : Bool)
    (sameCallOnly : Bool) (baseCall maxSteps : Nat) : BwdSt → Nat → BwdSt :=
  fun st i =>
    if st.steps ≥ maxSteps then st
    else
      match events.get? i with
      | none => st
      | some ev =>
        if sameCallOnly && ev.call_id ≠ baseCall then st
        else bwdStep events si enableMem st i

/-- `TraceParser.taint_backward` (the unused `target_value` parameter is
omitted).  Iterates `i` descending from `start_idx` to 0 and reverses the
accumulated hits at the end. -/
def taintBackward (events : List Event) (startIdx0 : Nat)
    (targetReg : List Char) (sameCallOnly : Bool) (maxSteps : Nat)
    (enableMem : Bool) : List Nat :=
  let si := (precomputeFx events).2
  match events with
  | [] => []
  | _ =>
    let n := events.length
    let start := min startIdx0 (n - 1)
    let T0 := addAliases ∅ (pyLower targetReg)
    let baseCall := ((events.get? start).map Event.call_id).getD 0
    let final := ((List.range (start + 1)).reverse).foldl
      (bwdLoopF events si enableMem sameCallOnly baseCall maxSteps)
      ⟨T0, ∅, ∅, 0, []⟩
    final.hits.reverse

/-! ### Call annotator (`TraceParser._annotate_call`)

The decoder is unavailable, so `_is_call_event` / `_is_return_event`
always fall back to the string predicates.  The call stack holds call ids
with the top at the head of the list. -/

/-- `TraceParser._is_call_insn`. -/
def isCallInsn (asm : List Char) : Bool :=
  startsW "bl ".data asm || startsW "blx ".data asm

/-- `TraceParser._is_return_insn`.  The Python expression
`asm.split()[1]` would raise on an operandless `ldr`; the model totalises
it with an empty token (which never equals `pc`). -/
def isReturnInsn (asm : List Char) : Bool :=
  if hasSub "bx lr".data asm then true
  else if startsW "mov ".data asm && hasSub "pc".data asm &&
      hasSub "lr".data asm then true
  else if startsW "pop ".data asm && hasSub "pc".data asm then true
  else if startsW "ldr ".data asm &&
      pyRStripC ',' ((pySplitWs asm).getD 1 []) == "pc".data then true
  else if startsW "ldm".data asm && hasSub "pc".data asm then true
  else false

structure CallSt where
  stack : List Nat
  next : Nat
deriving DecidableEq, Repr

/-- `_annotate_call` on a single event: annotate with the current
context (depth = stack size, id = top of stack or 0), then push a fresh
id on a call, or pop (if non-empty) on a return. -/
def annotateOne (ev : Event) (cs : CallSt) : Event × CallSt :=
  let asm := pyLower ev.asm
  let ev' := { ev with call_depth := cs.stack.length,
                       call_id := cs.stack.headD 0 }
  if isCallInsn asm then (ev', ⟨cs.next :: cs.stack, cs.next + 1⟩)
  else if isReturnInsn asm then (ev', ⟨cs.stack.tail, cs.next⟩)
  else (ev', cs)

def annotateGo (cs : CallSt) : List Event → List Event
  | [] => []
  | ev :: rest =>
    let r := annotateOne ev cs
    r.1 :: annotateGo r.2 rest

/-- The call annotation pass of the parse loop (initial stack empty,
`next_call_id = 1`). -/
def annotateCalls (evs : List Event) : List Event :=
  annotateGo ⟨[], 1⟩ evs

/-- One step of the first-appearance collection. -/
def faStep (acc : List Nat) (ev : Event) : List Nat :=
  if ev.call_id ∈ acc then acc else acc ++ [ev.call_id]

/-- The distinct `call_id` values of a trace in order of first
appearance. -/
def firstAppear (evs : List Event) : List Nat :=
  evs.foldl faStep []

/-- Specification-side counter: the number of unmatched `bl`/`blx` call
events (a return decrements only a positive counter, mirroring
pop-if-non-empty). -/
def unmatchedCalls (evs : List Event) : Nat :=
  evs.foldl
    (fun c ev =>
      let asm := pyLower ev.asm
      if isCallInsn asm then c + 1
      else if isReturnInsn asm then c - 1
      else c)
    0

/-! ### Stateful register reconstructor (`TraceParser.reconstruct_regs_at`)

The LRU cache is an `OrderedDict` (oldest entry first), together with
`_recent_access_idx` (initially -1).  Checkpoints are the frozen
`line_no → register map` dict built during parsing. -/

def odGet (c : List (Nat × RegMap)) (k : Nat) : Option RegMap :=
  match c with
  | [] => none
  | (k', v) :: t => if k' = k then some v else odGet t k

def odErase (c : List (Nat × RegMap)) (k : Nat) : List (Nat × RegMap) :=
  match c with
  | [] => []
  | (k', v) :: t => if k' = k then t else (k', v) :: odErase t k

/-- `OrderedDict.move_to_end(k)`. -/
def odMoveEnd (c : List (Nat × RegMap)) (k : Nat) : List (Nat × RegMap) :=
  match odGet c k with
  | some v => odErase c k ++ [(k, v)]
  | none => c

/-- `OrderedDict.__setitem__`: replace in place, else append (newest at
the end). -/
def odSet (c : List (Nat × RegMap)) (k : Nat) (v : RegMap) :
    List (Nat × RegMap) :=
  match c with
  | [] => [(k, v)]
  | (k', v') :: t => if k' = k then (k, v) :: t else (k', v') :: odSet t k v

structure RecSt where
  cache : List (Nat × RegMap)
  recent : Int
deriving DecidableEq, Repr

/-- The checkpoint-selection loop
(`for ln in sorted(keys): if ln <= target: checkpoint_line = ln else break`). -/
def cpPick : List Nat → Nat → Nat → Nat
  | [], _, acc => acc
  | ln :: t, tgt, acc => if ln ≤ tgt then cpPick t tgt ln else acc

/-- The replay loop of `reconstruct_regs_at`, with the mid-point
cache-insertion optimisation (a snapshot is stored once the replay
crosses the middle of a long distance). -/
def replayGo (events : List Event) (shouldMid : Bool) (midPoint : Nat) :
    List Nat → RegMap × List (Nat × RegMap) × Bool →
      RegMap × List (Nat × RegMap) × Bool
  | [], st => st
  | idx :: rest, (regs, cache, midC) =>
    match events.get? idx with
    | none => replayGo events shouldMid midPoint rest (regs, cache, midC)
    | some ev =>
      let regs' := applyEvent regs ev
      if shouldMid && !midC && idx ≥ midPoint then
        replayGo events shouldMid midPoint rest (regs', odSet cache idx regs', true)
      else
        replayGo events shouldMid midPoint rest (regs', cache, midC)

/-- The sequential-acceleration probe of `reconstruct_regs_at`: when the
previous query hit a nearby smaller index still in the cache, start from
its cached state. -/
def recSeqStart (cache : List (Nat × RegMap)) (recent : Int) (i : Nat) :
    Option (Nat × RegMap) :=
  let isSeq := recent ≥ 0 && decide (0 < ((i : Int) - recent).natAbs)
    && decide (((i : Int) - recent).natAbs < 100)
  if isSeq then
    match odGet cache recent.toNat with
    | some m => if recent ≤ (i : Int) then some (recent.toNat, m) else none
    | none => none
  else none

/-- The best cached index not exceeding the target (`-1` when none). -/
def recBestKey (cache : List (Nat × RegMap)) (i : Nat) : Int :=
  cache.foldl
    (fun (best : Int) kv =>
      if (kv.1 : Int) ≤ (i : Int) && (kv.1 : Int) > best then (kv.1 : Int)
      else best)
    (-1)

/-- The cached starting state of `reconstruct_regs_at`: the sequential
probe, else the best cached index at most the target. -/
def recBestStart (cache : List (Nat × RegMap)) (recent : Int) (i : Nat) :
    Option (Nat × RegMap) :=
  match recSeqStart cache recent i with
  | some sm => some sm
  | none =>
    let bk := recBestKey cache i
    if bk ≥ 0 then (odGet cache bk.toNat).map (fun m => (bk.toNat, m))
    else none

/-- The starting register map and replay start index of
`reconstruct_regs_at`: one past a cached state when available, else the
latest checkpoint at or before the target line (replaying its own event
again), else the empty state from index 0. -/
def recStartPair (events : List Event) (cps : List (Nat × RegMap))
    (cache : List (Nat × RegMap)) (recent : Int) (i : Nat) : RegMap × Nat :=
  match recBestStart cache recent i with
  | some (k, m) => (m, k + 1)
  | none =>
    let targetLine := ((events.get? i).map Event.line_no).getD 0
    let sortedKeys := sortNat (cps.map Prod.fst)
    let cpLine := cpPick sortedKeys targetLine 0
    let regs := (odGet cps cpLine).getD []
    let sIdx :=
      if cpLine ≠ 0 then
        (events.map Event.line_no).countP (fun ln => decide (ln < cpLine))
      else 0
    (regs, sIdx)

/-- `TraceParser.reconstruct_regs_at`.  The lower-bound binary search for
the first event whose line number is at least the checkpoint line is
modelled by counting the events with a smaller line number (its result on
the sorted-by-construction line numbers). -/
def reconstructRegsAt (events : List Event) (cps : List (Nat × RegMap))
    (st : RecSt) (i0 : Nat) : RegMap × RecSt :=
  match events with
  | [] => ([], st)
  | _ =>
    let n := events.length
    let i := min i0 (n - 1)
    match odGet st.cache i with
    | some m => (m, ⟨odMoveEnd st.cache i, (i : Int)⟩)
    | none =>
      let startPair := recStartPair events cps st.cache st.recent i
      let startIdx := startPair.2
      let dist := i - startIdx + 1
      let shouldMid := decide (dist > 50)
      let midPoint := startIdx + dist / 2
      let rr := replayGo events shouldMid midPoint
        (List.range' startIdx (i + 1 - startIdx)) (startPair.1, st.cache, false)
      let cache1 := odSet rr.2.1 i rr.1
      let cache2 := if cache1.length > 1024 then cache1.tail else cache1
      (rr.1, ⟨cache2, (i : Int)⟩)

/-- The register checkpoints created by the parse loop: after the event
of line `i` with `i % checkpoint_interval == 0`, a copy of
`_current_regs` (which replays exactly as `pureRegsAt`) is stored under
key `i`. -/
def buildCps (events : List Event) (interval : Nat) : List (Nat × RegMap) :=
  (List.range events.length).foldl
    (fun cps j =>
      match events.get? j with
      | some ev =>
        if ev.line_no % interval == 0 then cps ++ [(ev.line_no, pureRegsAt events j)]
        else cps
      | none => cps)
    []

/-! ### Invariant predicates and proof-side helper definitions -/

/-- Well-formedness of a parsed trace, guaranteed by the line lexer: the
per-event read/write dicts have unique keys, and line numbers are
strictly increasing and start at 1 or later. -/
structure EventsWF (events : List Event) : Prop where
  writesNodup : ∀ ev ∈ events, (ev.writes.map Prod.fst).Nodup
  readsNodup : ∀ ev ∈ events, (ev.reads.map Prod.fst).Nodup
  linesMono : (events.map Event.line_no).Chain' (· < ·)
  linesPos : ∀ ev ∈ events, 1 ≤ ev.line_no

/-- Correctness of the reconstruction LRU cache: every entry holds the
true after-state of its event index. -/
def CacheOK (events : List Event) (c : List (Nat × RegMap)) : Prop :=
  ∀ kv ∈ c, kv.1 < events.length ∧ kv.2 = pureRegsAt events kv.1

/-- Correctness of the register checkpoints: every entry is keyed by the
line number of some event and holds the after-state of that event. -/
def CpOK (events : List Event) (cps : List (Nat × RegMap)) : Prop :=
  ∀ kv ∈ cps, ∃ j, ∃ ev : Event, events.get? j = some ev ∧
    ev.line_no = kv.1 ∧ kv.2 = pureRegsAt events j

/-- The x/w alias closure of the claim: for every `N ≤ 30`, `xN` is
tainted iff `wN` is. -/
def XWClosed (S : Finset (List Char)) : Prop :=
  ∀ N : Nat, N ≤ 30 →
    (('x' :: (Nat.repr N).data) ∈ S ↔ ('w' :: (Nat.repr N).data) ∈ S)

/-- The generalized alias balance: for every non-empty digit string `d`,
`x‹d›` is in the set iff `w‹d›` is. -/
def xwBal (S : Finset (List Char)) : Prop :=
  ∀ d : List Char, d ≠ [] → d.all Char.isDigit = true →
    (('x' :: d) ∈ S ↔ ('w' :: d) ∈ S)

/-- The `MemFx` record `_precompute_memory_effects` assigns to event `i`
(helper for stating facts about `precomputeFx`). -/
def fxFor (events : List Event) (i : Nat) : MemFx :=
  match events.get? i with
  | none => {}
  | some ev =>
    let s := pyLower ev.asm
    if !(startsW "ldr".data s || startsW "str".data s) then {}
    else
      { effaddr := effAddr events i
        mem_op := if startsW "ldr".data s then "ldr".data else "str".data
        mem_width := precomputeWidth ev }

/-- The running counter underlying `unmatchedCalls`, from an arbitrary
start value (the call-stack size). -/
def unmatchedFrom (c : Nat) (evs : List Event) : Nat :=
  evs.foldl
    (fun c ev =>
      let asm := pyLower ev.asm
      if isCallInsn asm then c + 1
      else if isReturnInsn asm then c - 1
      else c)
    c

/-- Invariant of the call annotator relating the call stack, the id
counter and the list `acc` of call ids seen so far (in order of first
appearance). -/
structure CallInv (cs : CallSt) (acc : List Nat) : Prop where
  accSorted : acc.Pairwise (· < ·)
  accLtNext : ∀ a ∈ acc, a < cs.next
  stackLtNext : ∀ s ∈ cs.stack, s < cs.next
  stackDesc : cs.stack.Chain' (· > ·)
  tailSeen : ∀ s ∈ cs.stack.tail, s ∈ acc
  headFresh : ∀ t, cs.stack.head? = some t → t ∉ acc → ∀ a ∈ acc, a < t
  zeroSeen : acc = [] ∨ 0 ∈ acc
  nextPos : 1 ≤ cs.next
  stackAcc : cs.stack ≠ [] → acc ≠ []

/-! ### Concrete traces used by the claim theorems -/

/-- The S1 scenario of the specification (five ARM32 events). -/
def traceS1 : List Event :=
  [⟨1, 0x1000, "ldr r0, [r5]".data, [("r5".data, 0x8000)], [("r0".data, 0x1234)], 0, 0⟩,
   ⟨2, 0x1004, "mov r1, #0x100".data, [], [("r1".data, 0x100)], 0, 0⟩,
   ⟨3, 0x1008, "str r0, [r2]".data, [("r0".data, 0x1234), ("r2".data, 0x9000)], [], 0, 0⟩,
   ⟨4, 0x100c, "ldr r3, [r2]".data, [("r2".data, 0x9000)], [("r3".data, 0x1234)], 0, 0⟩,
   ⟨5, 0x1010, "add r4, r3, #1".data, [("r3".data, 0x1234)], [("r4".data, 0x1235)], 0, 0⟩]

/-- A load that writes its own base register (`ldr r1, [r1]`), after a
`mov` that set the base to 0x1000.  The emulator reports the pre-value
0x1000 in `reads` and the loaded value 0x2000 in `writes`. -/
def traceT2 : List Event :=
  [⟨1, 0x1000, "mov r1, #0x1000".data, [], [("r1".data, 0x1000)], 0, 0⟩,
   ⟨2, 0x1004, "ldr r1, [r1]".data, [("r1".data, 0x1000)], [("r1".data, 0x2000)], 0, 0⟩]

/-- The self-base-writing load family: base observed as `v` before the
load, written as `w` by it. -/
def traceSelfBase (v w : Nat) : List Event :=
  [⟨1, 0x1000, "mov r1, #0".data, [], [("r1".data, v)], 0, 0⟩,
   ⟨2, 0x1004, "ldr r1, [r1]".data, [("r1".data, v)], [("r1".data, w)], 0, 0⟩]

/-- A load whose base register `r9` is absent from the register state. -/
def traceNoBase : List Event :=
  [⟨1, 0x1000, "ldr r0, [r9]".data, [], [("r0".data, 7)], 0, 0⟩]

/-- The S5 scenario: a read of `r0` at index 3, no write to `r0`
anywhere. -/
def traceS5 : List Event :=
  [⟨1, 0x1000, "mov r1, #1".data, [], [("r1".data, 1)], 0, 0⟩,
   ⟨2, 0x1004, "mov r2, #2".data, [], [("r2".data, 2)], 0, 0⟩,
   ⟨3, 0x1008, "add r2, r2, #1".data, [("r2".data, 2)], [("r2".data, 3)], 0, 0⟩,
   ⟨4, 0x100c, "cmp r0, #0".data, [("r0".data, 5)], [], 0, 0⟩]

/-- An event with no reads, writes, or recognized mnemonic. -/
def nopEvent : Event := ⟨1, 0x1000, "nop".data, [], [], 0, 0⟩

/-- 52 inert events: at index 51 the backward parameter heuristic fires
for `r0` (no write within the scanned window, `idx > 50`). -/
def trace52 : List Event := List.replicate 52 nopEvent

/-- An ARM32 `ldrd` event (the claimed `d → 8` rule would give width 8;
the precomputation gives 4 from the `r0` operand). -/
def ldrdEv : Event :=
  ⟨1, 0x1000, "ldrd r0, r1, [r2]".data, [("r2".data, 0x9000)],
    [("r0".data, 1), ("r1".data, 2)], 0, 0⟩

def traceLdrd : List Event := [ldrdEv]

def ldrbEv : Event := ⟨1, 0, "ldrb r0, [r2]".data, [("r2".data, 0x9000)], [("r0".data, 1)], 0, 0⟩

def strhEv : Event := ⟨1, 0, "strh r0, [r2]".data, [("r0".data, 1), ("r2".data, 0x9000)], [], 0, 0⟩

def ldrdXEv : Event :=
  ⟨1, 0, "ldrd x0, x1, [x2]".data, [("x2".data, 0x9000)],
    [("x0".data, 1), ("x1".data, 2)], 0, 0⟩

def ldrXEv : Event := ⟨1, 0, "ldr x0, [x2]".data, [("x2".data, 0x9000)], [("x0".data, 1)], 0, 0⟩

def ldrREv : Event := ⟨1, 0, "ldr r0, [r2]".data, [("r2".data, 0x9000)], [("r0".data, 1)], 0, 0⟩

/-- A one-store trace (4-byte `str` at 0x9000) for index-coverage
witnesses. -/
def strEv : Event :=
  ⟨1, 0x1000, "str r0, [r2]".data, [("r0".data, 0xab), ("r2".data, 0x9000)], [], 0, 0⟩

def traceStr : List Event := [strEv]

/-- A call followed by an ordinary event: the first event carries
`call_id` 0 (the caller's context), the second carries the fresh id 1. -/
def traceCall : List Event :=
  [⟨1, 0x1000, "bl 0x2000".data, [], [], 0, 0⟩,
   ⟨2, 0x2000, "mov r0, #1".data, [], [("r0".data, 1)], 0, 0⟩]

/-- An `eor x0, x1, x1` constant-zero write with a tainted read
register. -/
def eorEv : Event :=
  ⟨1, 0x1000, "eor x0, x1, x1".data, [("x1".data, 3)], [("x0".data, 0)], 0, 0⟩

/-- The nine mnemonics accepted by `_is_constant_zero_write` (the word
prefix of the stripped lowered asm when any of its branches matches). -/
def nineOps : List (List Char) :=
  ["mov".data, "and".data, "mul".data, "mla".data, "mls".data, "eor".data,
   "sub".data, "rsb".data, "bic".data]

/-! ## Theorems -/

/-- Claim C1: the specification's S1 scenario expects forward taint from
`{mem@0x8000}` to return hits `[0, 2, 3, 4]` with the immediate write
`mov r1, #0x100` at index 1 absent.  Evaluating the engine on that trace
returns `[0, 1, 2, 3, 4]`: the immediate-write sanitization branch sets
`used = True` inside the alias loop but outside the taint-membership
test, so an immediate write is recorded as a hit even when no taint is
involved, contradicting the engine's own hit contract. -/
theorem taintForward_S1_hits :
    taintForward traceS1 0 [] [0x8000] false 120000 = [0, 1, 2, 3, 4] := by
  decide

/-- Claim C2 counterexample: for the self-base-writing load
`ldr r1, [r1]` at index 1, the register state before the event has
`r1 = 0x1000` (so the claimed `regs_at(i-1)` resolution would give
address `0x1000`), but the resolver returns `0x2000`, the value written
by the event itself. -/
theorem effAddr_post_state_cex :
    rmGet (pureRegsAt traceT2 0) "r1".data = some 0x1000 ∧
    effAddr traceT2 1 = some 0x2000 := by
  decide

/-- Claim C2 (amended): the effective-address resolver evaluates base
registers in `reconstruct_regs_at(i)` — the state after event `i` — so a
load that writes its own base uses the freshly written value (for every
observed value `v` and written value `w`, the address is `w mod 2^32`),
and a base register absent from that state makes the resolver return
`None`. -/
theorem effAddr_post_state_amended :
    (∀ v w : Nat,
      effAddr (traceSelfBase v w) 1 = some (w % M32) ∧
      rmGet (pureRegsAt (traceSelfBase v w) 1) "r1".data = some w) ∧
    effAddr traceNoBase 0 = none :=
  ⟨fun _ w => ⟨rfl, rfl⟩, by decide⟩

/-- Claim C3 counterexample: starting backward from the read of `r0` at
index 3 of the S5 trace (no earlier write to `r0`), the backward source
classifier does not return the parameter tag — its parameter heuristic
requires the index to exceed 50. -/
theorem backTerm_small_idx_cex :
    checkBackTerm traceS5 (precomputeFx traceS5).2 3 "r0".data = none := by
  decide

/-- Claim C3 (amended): the parameter tag can only be produced at an
index greater than 50; at index 3 the classifier returns no tag at all
(and is in fact never consulted, since no event writes `r0`), yet the
backward walk still returns the single hit `[3]` — the start event,
whose read of `r0` is tainted. -/
theorem backTerm_small_idx_amended :
    (∀ (events : List Event) (si : StoreIdx) (idx : Nat) (reg : List Char),
      checkBackTerm events si idx reg = some "源头·参数" → 50 < idx) ∧
    taintBackward traceS5 3 "r0".data false 100000 true = [3] ∧
    checkBackTerm traceS5 (precomputeFx traceS5).2 3 "r0".data = none := by
  refine ⟨?_, by decide, by decide⟩
  intro events si idx reg h
  rcases Nat.lt_or_ge 50 idx with hlt | hle
  · exact hlt
  · exfalso
    have hdec : decide (idx > 50) = false := decide_eq_false (by omega)
    simp only [checkBackTerm] at h
    split at h
    · simp at h
    · simp only [hdec, Bool.and_false, Bool.false_and, Bool.false_eq_true,
        if_false] at h
      split_ifs at h <;> simp at h

/-- Each event appends exactly one `MemFx` record to the accumulator of
`_precompute_memory_effects` (when its index is in range). -/
theorem precomputeOne_fst (events : List Event) (acc : List MemFx × StoreIdx)
    (i : Nat) :
    (precomputeOne events acc i).1 =
      acc.1 ++ (if (events.get? i).isSome then [fxFor events i] else []) := by
  unfold precomputeOne fxFor
  cases h : events.get? i with
  | none => simp
  | some ev =>
    simp only [Option.isSome_some, if_true]
    by_cases hg : (startsW "ldr".data (pyLower ev.asm) ||
        startsW "str".data (pyLower ev.asm)) = true
    · simp [hg]
    · simp [Bool.not_eq_true] at hg
      simp [hg]

theorem precompute_foldl_fst (events : List Event) :
    ∀ (l : List Nat), (∀ j ∈ l, j < events.length) →
      ∀ acc : List MemFx × StoreIdx,
        (l.foldl (precomputeOne events) acc).1 = acc.1 ++ l.map (fxFor events) := by
  intro l
  induction l with
  | nil => intro _ acc; simp
  | cons j t ih =>
    intro hmem acc
    have hj : j < events.length := hmem j (by simp)
    have hsome : (events.get? j).isSome := by
      rw [List.get?_eq_get hj]; rfl
    simp only [List.foldl_cons, List.map_cons]
    rw [ih (fun a ha => hmem a (by simp [ha])) _, precomputeOne_fst,
      if_pos hsome, List.append_assoc, List.singleton_append]

/-- The `MemFx` list built by `_precompute_memory_effects` holds
`fxFor events i` at position `i`. -/
theorem precomputeFx_fst_get (events : List Event) (i : Nat)
    (h : i < events.length) :
    (precomputeFx events).1.get? i = some (fxFor events i) := by
  unfold precomputeFx
  simp only
  rw [precompute_foldl_fst events (List.range events.length)
    (fun j hj => List.mem_range.mp hj) ([], [])]
  simp only [List.nil_append]
  rw [List.get?_map, List.get?_range h]
  rfl

/-- Claim C4 counterexample: the ARM32 event `ldrd r0, r1, [r2]` gets
precomputed `mem_width` 4, not the claimed 8 — the precomputation has no
`d`-suffix case. -/
theorem precompute_ldrd_width_cex :
    ((precomputeFx traceLdrd).1.getD 0 default).mem_width = 4 ∧ (4 : Nat) ≠ 8 := by
  decide

/-- Claim C4 (amended): the precomputed `mem_width` special-cases only
the `b` (`ldrb/strb` → 1) and `h` (`ldrh/strh` → 2) suffixes and
otherwise falls back to the width of the first register operand
(`xN` → 8, else 4); there is no `d` rule, so `ldrd/strd` events get 8
only with `xN` operands (an ARM32 `ldrd` gets 4).  The `d → 8` rule
exists only in the separate query-time helper `_get_mem_access_width`.
The first conjunct ties the precomputed record of every load/store event
to this width function. -/
theorem precompute_width_amended :
    (∀ (events : List Event) (i : Nat) (ev : Event), events.get? i = some ev →
      (startsW "ldr".data (pyLower ev.asm) || startsW "str".data (pyLower ev.asm)) = true →
      (precomputeFx events).1.get? i =
        some { effaddr := effAddr events i
               mem_op := if startsW "ldr".data (pyLower ev.asm) then "ldr".data
                         else "str".data
               mem_width := precomputeWidth ev }) ∧
    precomputeWidth ldrbEv = 1 ∧ precomputeWidth strhEv = 2 ∧
    precomputeWidth ldrdEv = 4 ∧ precomputeWidth ldrdXEv = 8 ∧
    precomputeWidth ldrXEv = 8 ∧ precomputeWidth ldrREv = 4 ∧
    getMemAccessWidth ldrdEv.asm = 8 := by
  refine ⟨?_, by decide, by decide, by decide, by decide, by decide, by decide,
    by decide⟩
  intro events i ev hget hguard
  obtain ⟨hlt, -⟩ := List.get?_eq_some.mp hget
  rw [precomputeFx_fst_get events i hlt]
  unfold fxFor
  rw [hget]
  simp [hguard]

/-- Claim C4 witness: the first conjunct of the amended width theorem
evaluated on the concrete one-event `ldrd` trace. -/
theorem precompute_width_amended_w :
    (precomputeFx traceLdrd).1.get? 0 =
      some { effaddr := effAddr traceLdrd 0
             mem_op := if startsW "ldr".data (pyLower ldrdEv.asm) then "ldr".data
                       else "str".data
             mem_width := precomputeWidth ldrdEv } :=
  precompute_width_amended.1 traceLdrd 0 ldrdEv rfl (by decide)

/-- Claim C3 witness: on a 52-event inert trace the parameter tag is
produced at index 51, and the amended theorem yields `50 < 51`. -/
theorem backTerm_small_idx_amended_w : 50 < 51 :=
  backTerm_small_idx_amended.1 trace52 [] 51 "r0".data (by decide)

/-- Folding a step function that at most appends the current index keeps
a hit list `r`-sorted, provided the iteration order is `r`-sorted. -/
theorem hits_sorted_foldl {σ : Type} {r : Nat → Nat → Prop} (hits : σ → List Nat)
    (f : σ → Nat → σ)
    (hf : ∀ st i, hits (f st i) = hits st ∨ hits (f st i) = hits st ++ [i]) :
    ∀ (l : List Nat) (st : σ), l.Pairwise r →
      (∀ h ∈ hits st, ∀ j ∈ l, r h j) → (hits st).Pairwise r →
      (hits (l.foldl f st)).Pairwise r := by
  intro l
  induction l with
  | nil => intro st _ _ hs; simpa using hs
  | cons i t ih =>
    intro st hl hcross hs
    rw [List.foldl_cons]
    have hl' := List.pairwise_cons.mp hl
    rcases hf st i with heq | heq
    · exact ih _ hl'.2
        (fun h hh j hj => hcross h (heq ▸ hh) j (List.mem_cons_of_mem _ hj))
        (heq ▸ hs)
    · apply ih _ hl'.2
      · intro h hh j hj
        rw [heq] at hh
        rcases List.mem_append.mp hh with h1 | h1
        · exact hcross h h1 j (List.mem_cons_of_mem _ hj)
        · simp only [List.mem_singleton] at h1
          subst h1
          exact hl'.1 j hj
      · rw [heq]
        refine List.pairwise_append.mpr ⟨hs, List.pairwise_singleton _ _, ?_⟩
        intro a ha b hb
        simp only [List.mem_singleton] at hb
        rw [hb]
        exact hcross a ha i (List.mem_cons_self _ _)

theorem appendIf_or (b : Bool) (l : List Nat) (i : Nat) :
    appendIf b l i = l ∨ appendIf b l i = l ++ [i] := by
  cases b
  · left; rfl
  · right; rfl

theorem fwdStep_hits (events : List Event) (si : StoreIdx) (st : FwdSt) (i : Nat) :
    (fwdStep events si st i).hits = st.hits ∨
      (fwdStep events si st i).hits = st.hits ++ [i] := by
  unfold fwdStep
  cases h : events.get? i with
  | none => left; rfl
  | some ev => exact appendIf_or _ _ _

theorem bwdStep_hits (events : List Event) (si : StoreIdx) (em : Bool)
    (st : BwdSt) (i : Nat) :
    (bwdStep events si em st i).hits = st.hits ∨
      (bwdStep events si em st i).hits = st.hits ++ [i] := by
  unfold bwdStep
  cases h : events.get? i with
  | none => left; rfl
  | some ev => exact appendIf_or _ _ _

theorem fwdLoopF_hits (events : List Event) (si : StoreIdx) (sco : Bool)
    (bc ms : Nat) (st : FwdSt) (i : Nat) :
    (fwdLoopF events si sco bc ms st i).hits = st.hits ∨
      (fwdLoopF events si sco bc ms st i).hits = st.hits ++ [i] := by
  unfold fwdLoopF
  split
  · left; rfl
  · cases h : events.get? i with
    | none => left; rfl
    | some ev =>
      dsimp only
      by_cases hc : (sco && decide (ev.call_id ≠ bc)) = true
      · rw [if_pos hc]; left; rfl
      · rw [if_neg hc]; exact fwdStep_hits events si st i

theorem bwdLoopF_hits (events : List Event) (si : StoreIdx) (em sco : Bool)
    (bc ms : Nat) (st : BwdSt) (i : Nat) :
    (bwdLoopF events si em sco bc ms st i).hits = st.hits ∨
      (bwdLoopF events si em sco bc ms st i).hits = st.hits ++ [i] := by
  unfold bwdLoopF
  split
  · left; rfl
  · cases h : events.get? i with
    | none => left; rfl
    | some ev =>
      dsimp only
      by_cases hc : (sco && decide (ev.call_id ≠ bc)) = true
      · rw [if_pos hc]; left; rfl
      · rw [if_neg hc]; exact bwdStep_hits events si em st i

theorem dedupGo_pairwise {r : Nat → Nat → Prop} :
    ∀ (l : List Nat) (acc : Finset Nat × List Nat),
      acc.2.Pairwise r → (∀ a ∈ acc.2, ∀ b ∈ l, r a b) → l.Pairwise r →
      ((l.foldl
        (fun (acc : Finset Nat × List Nat) k =>
          if k ∈ acc.1 then acc else (insert k acc.1, acc.2 ++ [k])) acc).2).Pairwise r := by
  intro l
  induction l with
  | nil => intro acc h _ _; simpa using h
  | cons k t ih =>
    intro acc hout hcross hl
    have hl' := List.pairwise_cons.mp hl
    rw [List.foldl_cons]
    by_cases hk : k ∈ acc.1
    · rw [if_pos hk]
      exact ih acc hout (fun a ha b hb => hcross a ha b (List.mem_cons_of_mem _ hb)) hl'.2
    · rw [if_neg hk]
      apply ih _ ?_ ?_ hl'.2
      · refine List.pairwise_append.mpr ⟨hout, List.pairwise_singleton _ _, ?_⟩
        intro a ha b hb
        simp only [List.mem_singleton] at hb
        rw [hb]
        exact hcross a ha k (List.mem_cons_self _ _)
      · intro a ha b hb
        rcases List.mem_append.mp ha with h1 | h1
        · exact hcross a h1 b (List.mem_cons_of_mem _ hb)
        · simp only [List.mem_singleton] at h1
          subst h1
          exact hl'.1 b hb

/-- The order-preserving dedup keeps a sorted list sorted. -/
theorem dedupKeepOrder_pairwise {r : Nat → Nat → Prop} (l : List Nat)
    (h : l.Pairwise r) : (dedupKeepOrder l).Pairwise r := by
  unfold dedupKeepOrder
  exact dedupGo_pairwise l (∅, []) (by simp) (by simp) h

/-- Claim C7: every hit list returned by `taint_forward` and by
`taint_backward` is strictly ascending by event index — the forward
engine visits events in ascending order and deduplicates preserving
order, and the backward engine iterates descending and reverses its
accumulated hits before returning. -/
theorem taint_hits_ascending :
    (∀ (events : List Event) (startIdx : Nat) (srcRegs : List (List Char))
      (srcMem : List Nat) (sco : Bool) (maxSteps : Nat),
      (taintForward events startIdx srcRegs srcMem sco maxSteps).Pairwise (· < ·)) ∧
    (∀ (events : List Event) (startIdx : Nat) (reg : List Char) (sco : Bool)
      (maxSteps : Nat) (em : Bool),
      (taintBackward events startIdx reg sco maxSteps em).Pairwise (· < ·)) := by
  constructor
  · intro events startIdx srcRegs srcMem sco maxSteps
    unfold taintForward
    cases events with
    | nil => simp
    | cons e es =>
      apply dedupKeepOrder_pairwise
      exact hits_sorted_foldl FwdSt.hits _
        (fun st i => fwdLoopF_hits _ _ _ _ _ st i) _ _
        (List.pairwise_lt_range' _ _) (by simp) (by simp)
  · intro events startIdx reg sco maxSteps em
    unfold taintBackward
    cases events with
    | nil => simp
    | cons e es =>
      rw [List.pairwise_reverse]
      have : ((List.range (min startIdx ((e :: es).length - 1) + 1)).reverse).Pairwise
          (fun a b => b < a) := by
        rw [List.pairwise_reverse]
        simpa using List.pairwise_lt_range _
      exact hits_sorted_foldl BwdSt.hits _
        (fun st i => bwdLoopF_hits _ _ _ _ _ _ st i) _ _
        this (by simp) (by simp)

/-- Membership after inserting a list of names. -/
theorem mem_foldl_insert (l : List (List Char)) (S : Finset (List Char)) (a : List Char) :
    a ∈ l.foldl (fun s x => insert x s) S ↔ a ∈ S ∨ a ∈ l := by
  induction l generalizing S with
  | nil => simp
  | cons x t ih =>
    simp only [List.foldl_cons, ih, Finset.mem_insert, List.mem_cons]
    tauto

/-- Membership after erasing a list of names. -/
theorem mem_foldl_erase (l : List (List Char)) (S : Finset (List Char)) (a : List Char) :
    a ∈ l.foldl (fun s x => s.erase x) S ↔ a ∈ S ∧ a ∉ l := by
  induction l generalizing S with
  | nil => simp
  | cons x t ih =>
    simp only [List.foldl_cons, ih, Finset.mem_erase, List.mem_cons]
    tauto

theorem mem_addAliases (S : Finset (List Char)) (r a : List Char) :
    a ∈ addAliases S r ↔ a ∈ S ∨ a ∈ aliasNames r :=
  mem_foldl_insert _ _ _

theorem mem_delAliases (S : Finset (List Char)) (r a : List Char) :
    a ∈ delAliases S r ↔ a ∈ S ∧ a ∉ aliasNames r :=
  mem_foldl_erase _ _ _

/-- The alias list of any register name is x/w-symmetric: it contains
`x‹d›` iff it contains `w‹d›`, for every non-empty digit string `d`. -/
theorem aliasCore_xw (n : List Char) (d : List Char) (hd : d ≠ [])
    (hdig : d.all Char.isDigit = true) :
    (('x' :: d) ∈ aliasCore n ↔ ('w' :: d) ∈ aliasCore n) := by
  unfold aliasCore
  split
  case h_1 rest =>
    split_ifs with h
    · simp only [List.mem_cons, List.not_mem_nil, or_false, List.cons.injEq,
        show (('x':Char) = 'w') = False from by decide,
        show (('w':Char) = 'x') = False from by decide,
        show (('x':Char) = 'x') = True from by decide,
        show (('w':Char) = 'w') = True from by decide,
        true_and, false_and, false_or, or_false]
    · simp only [List.mem_cons, List.not_mem_nil, or_false, List.cons.injEq,
        show (('x':Char) = 'w') = False from by decide,
        show (('w':Char) = 'x') = False from by decide,
        show (('x':Char) = 'x') = True from by decide,
        true_and, false_and, or_false]
      constructor
      · intro hdr
        refine absurd (?_ : (decide (rest ≠ []) && rest.all Char.isDigit) = true) h
        rw [← hdr]
        simp only [Bool.and_eq_true, decide_eq_true_eq]
        exact ⟨hd, hdig⟩
      · intro hf
        exact hf.elim
  case h_2 rest =>
    split_ifs with h
    · simp only [List.mem_cons, List.not_mem_nil, or_false, List.cons.injEq,
        show (('x':Char) = 'w') = False from by decide,
        show (('w':Char) = 'x') = False from by decide,
        show (('x':Char) = 'x') = True from by decide,
        show (('w':Char) = 'w') = True from by decide,
        true_and, false_and, false_or, or_false]
    · simp only [List.mem_cons, List.not_mem_nil, or_false, List.cons.injEq,
        show (('x':Char) = 'w') = False from by decide,
        show (('w':Char) = 'x') = False from by decide,
        show (('w':Char) = 'w') = True from by decide,
        true_and, false_and, false_or]
      constructor
      · intro hf
        exact hf.elim
      · intro hdr
        refine absurd (?_ : (decide (rest ≠ []) && rest.all Char.isDigit) = true) h
        rw [← hdr]
        simp only [Bool.and_eq_true, decide_eq_true_eq]
        exact ⟨hd, hdig⟩
  case h_3 n h1 h2 =>
    constructor
    · intro hmem
      rw [List.mem_singleton] at hmem
      exact absurd hmem.symm (h1 d)
    · intro hmem
      rw [List.mem_singleton] at hmem
      exact absurd hmem.symm (h2 d)

theorem aliasNames_xw (r : List Char) (d : List Char) (hd : d ≠ [])
    (hdig : d.all Char.isDigit = true) :
    (('x' :: d) ∈ aliasNames r ↔ ('w' :: d) ∈ aliasNames r) :=
  aliasCore_xw _ d hd hdig

theorem xwBal_addAliases {S : Finset (List Char)} (h : xwBal S) (r : List Char) :
    xwBal (addAliases S r) := by
  intro d hd hdig
  rw [mem_addAliases, mem_addAliases, h d hd hdig, aliasNames_xw r d hd hdig]

theorem xwBal_delAliases {S : Finset (List Char)} (h : xwBal S) (r : List Char) :
    xwBal (delAliases S r) := by
  intro d hd hdig
  rw [mem_delAliases, mem_delAliases, h d hd hdig, aliasNames_xw r d hd hdig]

theorem xwBal_foldl_addAliases {S : Finset (List Char)} (h : xwBal S)
    (l : List (List Char)) : xwBal (l.foldl addAliases S) := by
  induction l generalizing S with
  | nil => exact h
  | cons x t ih => exact ih (xwBal_addAliases h x)

theorem xwBal_fwdWrites (events : List Event) (si : StoreIdx) (i : Nat)
    (ev : Event) (asm : List Char) (eff : Option Nat) (mem : Finset Nat) :
    ∀ (l : List (List Char × Nat)) (acc : Finset (List Char) × Bool),
      xwBal acc.1 →
      xwBal ((l.foldl (fun acc kv => fwdWriteOne events si i ev asm eff mem acc kv.1) acc).1) := by
  intro l
  induction l with
  | nil => intro acc h; exact h
  | cons kv t ih =>
    intro acc h
    rw [List.foldl_cons]
    apply ih
    unfold fwdWriteOne
    split_ifs <;>
      first
      | exact xwBal_delAliases h _
      | exact xwBal_addAliases h _
      | exact h

theorem fwdMulti_bal (events : List Event) (i : Nat) (asm : List Char)
    (T : Finset (List Char)) (mem : Finset Nat) (used : Bool) (h : xwBal T) :
    xwBal (fwdMulti events i asm T mem used).1 := by
  unfold fwdMulti
  split_ifs <;> try exact h
  · exact xwBal_foldl_addAliases h _
  · exact xwBal_foldl_addAliases h _
  · rcases parseDualRegs asm with _ | ⟨r1, r2⟩
    · exact h
    · dsimp only
      split_ifs <;> try exact h
      rcases effAddr events i with _ | a <;> exact h
  · rcases parseDualRegs asm with _ | ⟨r1, r2⟩
    · exact h
    · dsimp only
      rcases effAddr events i with _ | a
      · exact h
      · dsimp only
        split_ifs with hc
        · exact xwBal_addAliases (xwBal_addAliases h r1) r2
        · exact h

theorem fwdArm64_bal (asm : List Char) (T : Finset (List Char)) (used : Bool)
    (h : xwBal T) : xwBal (fwdArm64 asm T used).1 := by
  unfold fwdArm64
  split_ifs <;> try exact h
  · rcases parseCselOperands asm with _ | ⟨rd, rn, rm⟩
    · exact h
    · dsimp only
      split_ifs <;> first | exact xwBal_addAliases h rd | exact h
  · rcases parseMaddOperands asm with _ | ⟨rd, rn, rm, ra⟩
    · exact h
    · dsimp only
      split_ifs <;> first | exact xwBal_addAliases h rd | exact h

theorem fwdStep_bal (events : List Event) (si : StoreIdx) (st : FwdSt)
    (i : Nat) (h : xwBal st.regs) : xwBal (fwdStep events si st i).regs := by
  unfold fwdStep
  cases hev : events.get? i with
  | none => exact h
  | some ev =>
    dsimp only
    exact fwdArm64_bal _ _ _ (fwdMulti_bal _ _ _ _ _ _
      (xwBal_fwdWrites _ _ _ _ _ _ _ _ _ h))

theorem fwdLoopF_bal (events : List Event) (si : StoreIdx) (sco : Bool)
    (bc ms : Nat) (st : FwdSt) (i : Nat) (h : xwBal st.regs) :
    xwBal (fwdLoopF events si sco bc ms st i).regs := by
  unfold fwdLoopF
  split
  · exact h
  · cases hev : events.get? i with
    | none => exact h
    | some ev =>
      dsimp only
      by_cases hc : (sco && decide (ev.call_id ≠ bc)) = true
      · rw [if_pos hc]; exact h
      · rw [if_neg hc]; exact fwdStep_bal events si st i h

theorem fwdInitRegs_bal (srcRegs : List (List Char)) :
    xwBal (fwdInitRegs srcRegs) := by
  unfold fwdInitRegs
  have base : xwBal (∅ : Finset (List Char)) := by
    intro d _ _
    simp
  generalize (∅ : Finset (List Char)) = S at base ⊢
  induction srcRegs generalizing S with
  | nil => exact base
  | cons r t ih => exact ih _ (xwBal_addAliases base (pyLower r))

theorem reprDigits : ∀ N : Nat, N ≤ 30 →
    (Nat.repr N).data ≠ [] ∧ (Nat.repr N).data.all Char.isDigit = true := by
  intro N hN
  interval_cases N <;> exact ⟨by decide, by decide⟩

/-- Claim C10: throughout any run of `taint_forward` the tainted register
set is alias-closed — after any sequence of loop iterations (over any
index list, covering every prefix of the actual run), and on the initial
source set, `xN` is tainted iff `wN` is, for every `N ≤ 30`. -/
theorem taint_forward_alias_closed :
    ∀ (events : List Event) (si : StoreIdx) (sco : Bool) (bc ms : Nat)
      (srcRegs : List (List Char)) (mem0 : Finset Nat) (l : List Nat),
      XWClosed ((l.foldl (fwdLoopF events si sco bc ms)
        ⟨fwdInitRegs srcRegs, mem0, 0, []⟩).regs) := by
  intro events si sco bc ms srcRegs mem0 l
  have bal : xwBal ((l.foldl (fwdLoopF events si sco bc ms)
      ⟨fwdInitRegs srcRegs, mem0, 0, []⟩).regs) := by
    have step : ∀ (l : List Nat) (st : FwdSt), xwBal st.regs →
        xwBal ((l.foldl (fwdLoopF events si sco bc ms) st).regs) := by
      intro l
      induction l with
      | nil => intro st h; exact h
      | cons j t ih =>
        intro st h
        rw [List.foldl_cons]
        exact ih _ (fwdLoopF_bal events si sco bc ms st j h)
    exact step l _ (fwdInitRegs_bal srcRegs)
  intro N hN
  exact bal _ (reprDigits N hN).1 (reprDigits N hN).2

/-- Claim C10 witness: the closure instantiated on the S1 trace with
source register `x0` after two loop iterations. -/
theorem taint_forward_alias_closed_w :
    XWClosed ((([0, 1] : List Nat).foldl
      (fwdLoopF traceS1 (precomputeFx traceS1).2 false 0 120000)
      ⟨fwdInitRegs ["x0".data], ∅, 0, []⟩).regs) :=
  taint_forward_alias_closed traceS1 (precomputeFx traceS1).2 false 0 120000
    ["x0".data] ∅ [0, 1]

theorem toLower_toLower (c : Char) : c.toLower.toLower = c.toLower := by
  unfold Char.toLower
  dsimp only
  split_ifs with h1 h2
  · exfalso
    obtain ⟨ha, hb⟩ := h1
    have hvalid : (c.toNat + 32).isValidChar := Or.inl (by omega)
    have hval : (Char.ofNat (c.toNat + 32)).toNat = c.toNat + 32 := by
      unfold Char.ofNat
      rw [dif_pos hvalid]
      simp [Char.ofNatAux, Char.toNat, UInt32.toNat, BitVec.toNat_ofNatLt]
    rw [hval] at h2
    omega
  · rfl
  · rfl

theorem pyLower_idem (s : List Char) : pyLower (pyLower s) = pyLower s := by
  unfold pyLower
  rw [List.map_map]
  apply List.map_congr_left
  intro c _
  exact toLower_toLower c

theorem startsW_iff (p s : List Char) : startsW p s = true ↔ ∃ t, s = p ++ t := by
  induction p generalizing s with
  | nil => simp [startsW]
  | cons a p' ih =>
    cases s with
    | nil => simp [startsW]
    | cons b s' =>
      simp only [startsW, Bool.and_eq_true, beq_iff_eq, ih, List.cons_append,
        List.cons.injEq]
      constructor
      · rintro ⟨rfl, t, rfl⟩
        exact ⟨t, rfl, rfl⟩
      · rintro ⟨t, rfl, rfl⟩
        exact ⟨rfl, t, rfl⟩

theorem startsW_weaken (p q s : List Char) (h : startsW (p ++ q) s = true) :
    startsW p s = true := by
  rw [startsW_iff] at h ⊢
  obtain ⟨t, rfl⟩ := h
  exact ⟨q ++ t, by simp⟩

theorem takeWhile_pre_of_pre (p s : List Char) (hall : ∀ c ∈ p, isWord c = true)
    (h : startsW p s = true) : startsW p (s.takeWhile isWord) = true := by
  rw [startsW_iff] at h
  obtain ⟨t, rfl⟩ := h
  have hp : p.takeWhile isWord = p := List.takeWhile_eq_self_iff.mpr hall
  rw [startsW_iff, List.takeWhile_append, hp, if_pos rfl]
  exact ⟨t.takeWhile isWord, rfl⟩

theorem startsW_strip (p s : List Char) (hne : p ≠ [])
    (hnws : ∀ c ∈ p, isWs c = false) (h : startsW p s = true) :
    startsW p (pyStrip s) = true := by
  rw [startsW_iff] at h
  obtain ⟨t, rfl⟩ := h
  have hdrop : List.dropWhile isWs (p ++ t) = p ++ t := by
    cases p with
    | nil => exact absurd rfl hne
    | cons c p' =>
      rw [List.cons_append, List.dropWhile_cons,
        if_neg (by simp [hnws c (List.mem_cons_self _ _)])]
  unfold pyStrip
  rw [hdrop, List.reverse_append, List.dropWhile_append]
  split
  · have hps : List.dropWhile isWs p.reverse = p.reverse := by
      rw [List.dropWhile_eq_self_iff]
      intro hl
      simp only [Bool.not_eq_true]
      refine hnws _ ?_
      have hm : p.reverse[0] ∈ p.reverse := List.getElem_mem hl
      rwa [List.mem_reverse] at hm
    rw [hps, List.reverse_reverse, startsW_iff]
    exact ⟨[], by simp⟩
  · rw [List.reverse_append, List.reverse_reverse, startsW_iff]
    exact ⟨(List.dropWhile isWs t.reverse).reverse, rfl⟩

theorem matchTwoOp_op (s : List Char) (op g2 g3 : List Char)
    (h : matchTwoOp s = some (op, g2, g3)) : op = s.takeWhile isWord := by
  simp only [matchTwoOp] at h
  split_ifs at h
  · split at h
    · split_ifs at h
      exact (congrArg (fun p => p.1) (Option.some.inj h)).symm
    · exact absurd h (by simp)

theorem matchThreeOp_op (s : List Char) (m : M3)
    (h : matchThreeOp s = some m) : m.op = s.takeWhile isWord := by
  simp only [matchThreeOp] at h
  split_ifs at h
  · split at h
    · split_ifs at h
      · split at h
        · split_ifs at h
          rw [← Option.some.inj h]
        · exact absurd h (by simp)
    · exact absurd h (by simp)

theorem constZero_op (ev : Event) (rd : List Char)
    (h : isConstantZeroWrite ev rd = true) :
    (pyStrip (pyLower ev.asm)).takeWhile isWord ∈ nineOps := by
  unfold isConstantZeroWrite at h
  split_ifs at h
  simp only [Bool.or_eq_true] at h
  rcases h with ((hm | hm) | hm) | hm
  · cases h2 : matchTwoOp (pyStrip (pyLower ev.asm)) with
    | none => rw [h2] at hm; simp at hm
    | some trip =>
      obtain ⟨op, gg2, gg3⟩ := trip
      rw [h2] at hm
      rw [← matchTwoOp_op _ _ _ _ h2]
      simp only [Bool.and_eq_true, Bool.or_eq_true, beq_iff_eq] at hm
      simp [nineOps]
      tauto
  · cases h3 : matchThreeOp (pyStrip (pyLower ev.asm)) with
    | none => rw [h3] at hm; simp at hm
    | some m =>
      rw [h3] at hm
      rw [← matchThreeOp_op _ _ h3]
      simp only [Bool.and_eq_true, Bool.or_eq_true, beq_iff_eq] at hm
      simp [nineOps]
      tauto
  · cases h3 : matchThreeOp (pyStrip (pyLower ev.asm)) with
    | none => rw [h3] at hm; simp at hm
    | some m =>
      rw [h3] at hm
      rw [← matchThreeOp_op _ _ h3]
      simp only [Bool.and_eq_true, Bool.or_eq_true, beq_iff_eq] at hm
      simp [nineOps]
      tauto
  · cases h3 : matchThreeOp (pyStrip (pyLower ev.asm)) with
    | none => rw [h3] at hm; simp at hm
    | some m =>
      rw [h3] at hm
      rw [← matchThreeOp_op _ _ h3]
      simp only [Bool.and_eq_true, Bool.or_eq_true, beq_iff_eq] at hm
      simp [nineOps]
      tauto

theorem isWs_not_word (c : Char) (h : isWs c = true) : isWord c = false := by
  simp only [isWs, Bool.or_eq_true, beq_iff_eq] at h
  rcases h with ((((h | h) | h) | h) | h) | h <;> subst h <;> decide

theorem word_pre_chain (q r s : List Char) (hq : q ≠ [])
    (hw : ∀ c ∈ q, isWord c = true)
    (h : startsW (q ++ r) s = true) :
    startsW q ((pyStrip s).takeWhile isWord) = true := by
  have h1 := startsW_weaken q r s h
  have hnws : ∀ c ∈ q, isWs c = false := by
    intro c hc
    cases hws : isWs c with
    | false => rfl
    | true =>
      have hnw := isWs_not_word c hws
      rw [hw c hc] at hnw
      exact absurd hnw (by simp)
  exact takeWhile_pre_of_pre q (pyStrip s) hw (startsW_strip q s hq hnws h1)

theorem word_pre_stripped (q r s : List Char)
    (hw : ∀ c ∈ q, isWord c = true)
    (h : startsW (q ++ r) s = true) :
    startsW q (s.takeWhile isWord) = true :=
  takeWhile_pre_of_pre q s hw (startsW_weaken q r s h)

theorem nineOps_no_guard (y : List Char) (hy : y ∈ nineOps) :
    startsW "pop".data y = false ∧ startsW "ldm".data y = false ∧
    startsW "ldrd".data y = false ∧ startsW "csel".data y = false ∧
    startsW "csinc".data y = false ∧ startsW "csinv".data y = false ∧
    startsW "csneg".data y = false ∧ startsW "madd".data y = false ∧
    startsW "msub".data y = false ∧ startsW "smaddl".data y = false ∧
    startsW "umaddl".data y = false ∧ startsW "smsubl".data y = false ∧
    startsW "umsubl".data y = false := by
  simp only [nineOps, List.mem_cons, List.not_mem_nil, or_false] at hy
  rcases hy with rfl | rfl | rfl | rfl | rfl | rfl | rfl | rfl | rfl <;> decide

theorem czw_guards (ev : Event) (rd : List Char)
    (h : isConstantZeroWrite ev rd = true) :
    startsW "pop ".data (pyLower ev.asm) = false ∧
    startsW "ldm".data (pyLower ev.asm) = false ∧
    startsW "ldrd ".data (pyLower ev.asm) = false ∧
    isCondSelectOp (pyLower ev.asm) = false ∧
    isMaddOp (pyLower ev.asm) = false := by
  obtain ⟨g1, g2, g3, g4, g5, g6, g7, g8, g9, g10, g11, g12, g13⟩ :=
    nineOps_no_guard _ (constZero_op ev rd h)
  refine ⟨?_, ?_, ?_, ?_, ?_⟩
  · cases hp : startsW "pop ".data (pyLower ev.asm) with
    | false => rfl
    | true =>
      exact absurd (word_pre_chain "pop".data " ".data (pyLower ev.asm)
        (by decide) (by decide) hp) (by simp [g1])
  · cases hp : startsW "ldm".data (pyLower ev.asm) with
    | false => rfl
    | true =>
      exact absurd (word_pre_chain "ldm".data [] (pyLower ev.asm)
        (by decide) (by decide) (by simpa using hp)) (by simp [g2])
  · cases hp : startsW "ldrd ".data (pyLower ev.asm) with
    | false => rfl
    | true =>
      exact absurd (word_pre_chain "ldrd".data " ".data (pyLower ev.asm)
        (by decide) (by decide) hp) (by simp [g3])
  · cases hp : isCondSelectOp (pyLower ev.asm) with
    | false => rfl
    | true =>
      exfalso
      unfold isCondSelectOp at hp
      rw [pyLower_idem] at hp
      simp only [List.any_cons, List.any_nil, Bool.or_eq_true,
        Bool.or_false] at hp
      rcases hp with hp | hp | hp | hp
      · exact absurd (word_pre_stripped "csel".data " ".data _
          (by decide) hp) (by simp [g4])
      · exact absurd (word_pre_stripped "csinc".data " ".data _
          (by decide) hp) (by simp [g5])
      · exact absurd (word_pre_stripped "csinv".data " ".data _
          (by decide) hp) (by simp [g6])
      · exact absurd (word_pre_stripped "csneg".data " ".data _
          (by decide) hp) (by simp [g7])
  · cases hp : isMaddOp (pyLower ev.asm) with
    | false => rfl
    | true =>
      exfalso
      unfold isMaddOp at hp
      rw [pyLower_idem] at hp
      simp only [List.any_cons, List.any_nil, Bool.or_eq_true,
        Bool.or_false] at hp
      rcases hp with hp | hp | hp | hp | hp | hp
      · exact absurd (word_pre_stripped "madd".data " ".data _
          (by decide) hp) (by simp [g8])
      · exact absurd (word_pre_stripped "msub".data " ".data _
          (by decide) hp) (by simp [g9])
      · exact absurd (word_pre_stripped "smaddl".data " ".data _
          (by decide) hp) (by simp [g10])
      · exact absurd (word_pre_stripped "umaddl".data " ".data _
          (by decide) hp) (by simp [g11])
      · exact absurd (word_pre_stripped "smsubl".data " ".data _
          (by decide) hp) (by simp [g12])
      · exact absurd (word_pre_stripped "umsubl".data " ".data _
          (by decide) hp) (by simp [g13])

theorem fwdWriteOne_czw (events : List Event) (si : StoreIdx) (i : Nat)
    (ev : Event) (asm : List Char) (eff : Option Nat) (mem : Finset Nat)
    (acc : Finset (List Char) × Bool) (rd : List Char)
    (h : isConstantZeroWrite ev rd = true) :
    fwdWriteOne events si i ev asm eff mem acc rd =
      (delAliases acc.1 rd, true) := by
  unfold fwdWriteOne
  rw [if_pos h]

theorem fwdMulti_regs_eq (events : List Event) (i : Nat) (asm : List Char)
    (T : Finset (List Char)) (mem : Finset Nat) (used : Bool)
    (hpop : startsW "pop ".data asm = false)
    (hldm : startsW "ldm".data asm = false)
    (hldrd : startsW "ldrd ".data asm = false) :
    (fwdMulti events i asm T mem used).1 = T := by
  unfold fwdMulti
  rw [hpop, hldm, hldrd]
  simp only [Bool.false_eq_true, if_false]
  split_ifs with h1 h2 h3
  · rfl
  · rfl
  · cases parseDualRegs asm with
    | none => rfl
    | some p =>
      obtain ⟨r1, r2⟩ := p
      dsimp only
      split_ifs with h4
      · cases effAddr events i <;> rfl
      · rfl
  · rfl

theorem fwdArm64_regs_eq (asm : List Char) (T : Finset (List Char)) (u : Bool)
    (hcs : isCondSelectOp asm = false) (hmd : isMaddOp asm = false) :
    (fwdArm64 asm T u).1 = T := by
  unfold fwdArm64
  rw [hcs, hmd]
  simp

/-- Claim C5: when an event's single write to `rd` is recognised as a
constant-zero write, the forward-taint step removes `rd` and every alias
of `rd` from the tainted register set, regardless of whether any read
register of the event was tainted. -/
theorem const_zero_write_sanitizes (events : List Event) (si : StoreIdx)
    (st : FwdSt) (i : Nat) (ev : Event) (rd : List Char) (v : Nat)
    (h1 : events.get? i = some ev) (h2 : ev.writes = [(rd, v)])
    (h3 : isConstantZeroWrite ev rd = true) :
    ∀ a ∈ aliasNames rd, a ∉ (fwdStep events si st i).regs := by
  intro a ha
  obtain ⟨g1, g2, g3, g4, g5⟩ := czw_guards ev rd h3
  unfold fwdStep
  rw [h1]
  dsimp only
  rw [h2]
  simp only [List.foldl_cons, List.foldl_nil]
  rw [fwdWriteOne_czw _ _ _ _ _ _ _ _ _ h3]
  dsimp only
  rw [fwdMulti_regs_eq _ _ _ _ _ _ g1 g2 g3,
    fwdArm64_regs_eq _ _ _ g4 g5]
  intro hmem
  rw [mem_delAliases] at hmem
  exact hmem.2 ha

theorem const_zero_write_sanitizes_w :
    ([eorEv].get? 0 = some eorEv ∧ eorEv.writes = [("x0".data, 0)] ∧
      isConstantZeroWrite eorEv "x0".data = true ∧
      "x0".data ∈ aliasNames "x0".data) ∧
    "x0".data ∉
      (fwdStep [eorEv] []
        ⟨{"x0".data, "w0".data, "x1".data}, ∅, 0, []⟩ 0).regs := by
  refine ⟨⟨rfl, rfl, by decide, by decide⟩, ?_⟩
  exact const_zero_write_sanitizes [eorEv] []
    ⟨{"x0".data, "w0".data, "x1".data}, ∅, 0, []⟩ 0 eorEv "x0".data 0
    rfl rfl (by decide) "x0".data (by decide)

theorem siMem_append_self (si : StoreIdx) (a i : Nat) :
    siMem (siAppend si a i) a i := by
  induction si with
  | nil => exact ⟨[i], by simp [siAppend, siGet], by simp⟩
  | cons p t ih =>
    obtain ⟨b, l⟩ := p
    unfold siAppend
    split_ifs with hb
    · exact ⟨l ++ [i], by simp [siGet, hb], by simp⟩
    · obtain ⟨l', hget, hmem⟩ := ih
      exact ⟨l', by simp [siGet, hb, hget], hmem⟩

theorem siMem_append_mono (si : StoreIdx) (a' j a i : Nat)
    (h : siMem si a i) : siMem (siAppend si a' j) a i := by
  induction si with
  | nil =>
    obtain ⟨l, hget, _⟩ := h
    simp [siGet] at hget
  | cons p t ih =>
    obtain ⟨b, l⟩ := p
    obtain ⟨l', hget, hmem⟩ := h
    unfold siAppend
    unfold siGet at hget
    split_ifs with hb
    · subst hb
      split_ifs at hget with hba
      · exact ⟨l ++ [j], by simp [siGet, hba],
          by simp [List.mem_append, (Option.some.inj hget) ▸ hmem]⟩
      · exact ⟨l', by simp [siGet, hba, hget], hmem⟩
    · split_ifs at hget with hba
      · exact ⟨l', by simp [siGet, hba, hget], hmem⟩
      · obtain ⟨l'', hget'', hmem''⟩ := ih ⟨l', hget, hmem⟩
        exact ⟨l'', by simp [siGet, hba, hget''], hmem''⟩

theorem siMem_foldl_append (offs : List Nat) (f : Nat → Nat) (j : Nat)
    (si : StoreIdx) (a i : Nat) (h : siMem si a i) :
    siMem (offs.foldl (fun s off => siAppend s (f off) j) si) a i := by
  induction offs generalizing si with
  | nil => exact h
  | cons o t ih =>
    rw [List.foldl_cons]
    exact ih _ (siMem_append_mono _ _ _ _ _ h)

theorem siMem_foldl_self (offs : List Nat) (f : Nat → Nat) (i : Nat)
    (si : StoreIdx) (off0 : Nat) (h : off0 ∈ offs) :
    siMem (offs.foldl (fun s off => siAppend s (f off) i) si) (f off0) i := by
  induction offs generalizing si with
  | nil => cases h
  | cons o t ih =>
    rw [List.foldl_cons]
    rcases List.mem_cons.mp h with rfl | hmem
    · exact siMem_foldl_append t f i _ _ _ (siMem_append_self _ _ _)
    · exact ih _ hmem

theorem siMem_precomputeOne (events : List Event) (acc : List MemFx × StoreIdx)
    (j a i : Nat) (h : siMem acc.2 a i) :
    siMem (precomputeOne events acc j).2 a i := by
  unfold precomputeOne
  cases events.get? j with
  | none => exact h
  | some ev =>
    dsimp only
    split_ifs <;> dsimp only <;>
      first
        | exact h
        | exact siMem_foldl_append _ _ _ _ _ _ h
        | (split <;>
            first
              | exact siMem_foldl_append _ _ _ _ _ _ h
              | exact h)

theorem siMem_foldl_pre (L : List Nat) (events : List Event)
    (acc : List MemFx × StoreIdx) (a i : Nat) (h : siMem acc.2 a i) :
    siMem (L.foldl (precomputeOne events) acc).2 a i := by
  induction L generalizing acc with
  | nil => exact h
  | cons j t ih =>
    rw [List.foldl_cons]
    exact ih _ (siMem_precomputeOne events acc j a i h)

theorem siMem_foldl_main (L : List Nat) (events : List Event) (i : Nat)
    (ev : Event) (a : Nat) (acc : List MemFx × StoreIdx)
    (h1 : events.get? i = some ev)
    (h2 : startsW "str".data (pyLower ev.asm) = true)
    (h3 : effAddr events i = some a) (hiL : i ∈ L) (k : Nat)
    (hk : k < max 1 (precomputeWidth ev)) :
    siMem (L.foldl (precomputeOne events) acc).2 ((a % M32 + k) % M32) i := by
  induction L generalizing acc with
  | nil => cases hiL
  | cons j t ih =>
    rw [List.foldl_cons]
    rcases List.mem_cons.mp hiL with rfl | hmem
    · apply siMem_foldl_pre
      unfold precomputeOne
      rw [h1]
      dsimp only
      rw [if_neg (by simp [h2]), h3]
      dsimp only
      rw [if_pos h2]
      exact siMem_foldl_self (List.range (max 1 (precomputeWidth ev)))
        (fun off => (a % M32 + off) % M32) i acc.2 k (List.mem_range.mpr hk)
    · exact ih _ hmem

theorem siGet_map_sort (si : StoreIdx) (a : Nat) :
    siGet (si.map (fun al => (al.1, sortNat al.2))) a =
      (siGet si a).map sortNat := by
  induction si with
  | nil => rfl
  | cons p t ih =>
    obtain ⟨b, l⟩ := p
    simp only [List.map_cons, siGet]
    split_ifs with hb
    · rfl
    · exact ih

theorem mem_insSorted (x a : Nat) (l : List Nat) :
    a ∈ insSorted x l ↔ a = x ∨ a ∈ l := by
  induction l with
  | nil => simp [insSorted]
  | cons b t ih =>
    unfold insSorted
    split_ifs with h
    · simp [List.mem_cons]
    · simp only [List.mem_cons, ih]
      tauto

theorem mem_sortNat (a : Nat) (l : List Nat) : a ∈ sortNat l ↔ a ∈ l := by
  induction l with
  | nil => exact Iff.rfl
  | cons b t ih =>
    unfold sortNat
    rw [mem_insSorted]
    simp [ih]

theorem sorted_insSorted (x : Nat) (l : List Nat)
    (h : List.Sorted (· ≤ ·) l) : List.Sorted (· ≤ ·) (insSorted x l) := by
  induction l with
  | nil => simp [insSorted]
  | cons b t ih =>
    rw [List.sorted_cons] at h
    unfold insSorted
    split_ifs with hle
    · rw [List.sorted_cons]
      refine ⟨?_, List.sorted_cons.mpr h⟩
      intro y hy
      rcases List.mem_cons.mp hy with rfl | hyt
      · exact hle
      · exact le_trans hle (h.1 y hyt)
    · rw [List.sorted_cons]
      refine ⟨?_, ih h.2⟩
      intro y hy
      rcases (mem_insSorted x y t).mp hy with rfl | hyt
      · omega
      · exact h.1 y hyt

theorem sorted_sortNat (l : List Nat) : List.Sorted (· ≤ ·) (sortNat l) := by
  induction l with
  | nil => simp [sortNat]
  | cons b t ih => exact sorted_insSorted b (sortNat t) ih

/-- Claim C9: after the memory-effects precomputation, a store event with
resolved effective address `a` and width `W` is recorded in the
store-address index under every byte address `(a + k) mod 2^32` for
`k < W`, and every per-address list of the index is sorted in ascending
event-index order. -/
theorem store_index_spans_sorted (events : List Event) (i : Nat) (ev : Event)
    (a : Nat) (h1 : events.get? i = some ev)
    (h2 : startsW "str".data (pyLower ev.asm) = true)
    (h3 : effAddr events i = some a) :
    (∀ k, k < precomputeWidth ev →
      siMem (precomputeFx events).2 ((a % M32 + k) % M32) i) ∧
    ∀ p ∈ (precomputeFx events).2, List.Sorted (· ≤ ·) p.2 := by
  constructor
  · intro k hk
    have hk' : k < max 1 (precomputeWidth ev) :=
      lt_of_lt_of_le hk (le_max_right _ _)
    obtain ⟨hlt, -⟩ := List.get?_eq_some.mp h1
    have hmain := siMem_foldl_main (List.range events.length) events i ev a
      ([], []) h1 h2 h3 (List.mem_range.mpr hlt) k hk'
    obtain ⟨l, hget, hmem⟩ := hmain
    refine ⟨sortNat l, ?_, (mem_sortNat _ _).mpr hmem⟩
    unfold precomputeFx
    dsimp only
    rw [siGet_map_sort, hget]
    rfl
  · intro p hp
    unfold precomputeFx at hp
    dsimp only at hp
    obtain ⟨q, hq, rfl⟩ := List.mem_map.mp hp
    exact sorted_sortNat _

theorem store_index_spans_sorted_w :
    (traceStr.get? 0 = some strEv ∧
      startsW "str".data (pyLower strEv.asm) = true ∧
      effAddr traceStr 0 = some 0x9000 ∧ 2 < precomputeWidth strEv) ∧
    siMem (precomputeFx traceStr).2 ((0x9000 % M32 + 2) % M32) 0 :=
  ⟨⟨rfl, by decide, by decide, by decide⟩,
    (store_index_spans_sorted traceStr 0 strEv 0x9000 rfl (by decide)
      (by decide)).1 2 (by decide)⟩

theorem annotateOne_id (ev : Event) (cs : CallSt) :
    (annotateOne ev cs).1.call_id = cs.stack.headD 0 := by
  unfold annotateOne
  dsimp only
  split_ifs <;> rfl

theorem annotateOne_depth (ev : Event) (cs : CallSt) :
    (annotateOne ev cs).1.call_depth = cs.stack.length := by
  unfold annotateOne
  dsimp only
  split_ifs <;> rfl

theorem callInv_step (ev : Event) (cs : CallSt) (acc : List Nat)
    (hinv : CallInv cs acc) :
    CallInv (annotateOne ev cs).2 (faStep acc (annotateOne ev cs).1) := by
  have hfa : faStep acc (annotateOne ev cs).1 =
      if cs.stack.headD 0 ∈ acc then acc else acc ++ [cs.stack.headD 0] := by
    unfold faStep
    rw [annotateOne_id]
  set id0 := cs.stack.headD 0 with hid0
  rw [hfa]
  have hsub : ∀ a ∈ acc, a ∈ (if id0 ∈ acc then acc else acc ++ [id0]) := by
    split_ifs <;> intro a ha <;> simp [ha]
  have hmemid : id0 ∈ (if id0 ∈ acc then acc else acc ++ [id0]) := by
    split_ifs with h <;> simp [h]
  have hne2 : (if id0 ∈ acc then acc else acc ++ [id0]) ≠ [] := by
    split_ifs with h
    · exact List.ne_nil_of_mem h
    · simp
  have hfresh : id0 ∉ acc → ∀ a ∈ acc, a < id0 := by
    intro hnin
    cases hs : cs.stack with
    | nil =>
      have hz0 : id0 = 0 := by rw [hid0, hs]; rfl
      rcases hinv.zeroSeen with hz | hz
      · intro a ha
        rw [hz] at ha
        cases ha
      · rw [hz0] at hnin
        exact absurd hz hnin
    | cons t ts =>
      have ht : cs.stack.head? = some t := by rw [hs]; rfl
      have hzt : id0 = t := by rw [hid0, hs]; rfl
      rw [hzt] at hnin ⊢
      exact hinv.headFresh t ht hnin
  have hsorted2 : (if id0 ∈ acc then acc else acc ++ [id0]).Pairwise (· < ·) := by
    split_ifs with h
    · exact hinv.accSorted
    · rw [List.pairwise_append]
      refine ⟨hinv.accSorted, List.pairwise_singleton _ _, ?_⟩
      intro a ha b hb
      rw [List.mem_singleton] at hb
      rw [hb]
      exact hfresh h a ha
  have hidlt : id0 < cs.next := by
    cases hs : cs.stack with
    | nil =>
      have hz0 : id0 = 0 := by rw [hid0, hs]; rfl
      rw [hz0]
      have := hinv.nextPos
      omega
    | cons t ts =>
      have hzt : id0 = t := by rw [hid0, hs]; rfl
      rw [hzt]
      exact hinv.stackLtNext t (by rw [hs]; exact List.mem_cons_self _ _)
  have hlt2 : ∀ a ∈ (if id0 ∈ acc then acc else acc ++ [id0]), a < cs.next := by
    split_ifs with h
    · exact hinv.accLtNext
    · intro a ha
      rcases List.mem_append.mp ha with ha | ha
      · exact hinv.accLtNext a ha
      · rw [List.mem_singleton] at ha
        rw [ha]
        exact hidlt
  have hzero2 : 0 ∈ (if id0 ∈ acc then acc else acc ++ [id0]) := by
    rcases hinv.zeroSeen with hz | hz
    · have hst : cs.stack = [] := by
        by_contra hne
        exact hinv.stackAcc hne hz
      have hz0 : id0 = 0 := by rw [hid0, hst]; rfl
      rw [hz, hz0]
      simp
    · exact hsub 0 hz
  have htail2 : ∀ s ∈ cs.stack, s ∈ (if id0 ∈ acc then acc else acc ++ [id0]) := by
    intro s hsp
    cases hs : cs.stack with
    | nil => rw [hs] at hsp; cases hsp
    | cons t ts =>
      rw [hs] at hsp
      rcases List.mem_cons.mp hsp with rfl | hsts
      · have hzt : id0 = s := by rw [hid0, hs]; rfl
        rw [← hzt]
        exact hmemid
      · exact hsub s (hinv.tailSeen s (by rw [hs]; exact hsts))
  unfold annotateOne
  dsimp only
  by_cases hc : isCallInsn (pyLower ev.asm) = true
  case pos =>
    rw [if_pos hc]
    exact
      { accSorted := hsorted2
        accLtNext := fun a ha => Nat.lt_succ_of_lt (hlt2 a ha)
        stackLtNext := by
          intro s hsp
          rcases List.mem_cons.mp hsp with rfl | hsp
          · exact Nat.lt_succ_self _
          · exact Nat.lt_succ_of_lt (hinv.stackLtNext s hsp)
        stackDesc := by
          rw [List.chain'_cons']
          refine ⟨?_, hinv.stackDesc⟩
          intro b hb
          exact hinv.stackLtNext b (List.mem_of_mem_head? hb)
        tailSeen := by
          intro s hsp
          exact htail2 s hsp
        headFresh := by
          intro t htEq _ a ha
          have hteq : t = cs.next := by
            simp only [List.head?_cons, Option.some.injEq] at htEq
            exact htEq.symm
          rw [hteq]
          exact hlt2 a ha
        zeroSeen := Or.inr hzero2
        nextPos := Nat.le_succ_of_le hinv.nextPos
        stackAcc := fun _ => hne2 }
  case neg =>
    rw [if_neg hc]
    by_cases hr : isReturnInsn (pyLower ev.asm) = true
    case pos =>
      rw [if_pos hr]
      exact
        { accSorted := hsorted2
          accLtNext := hlt2
          stackLtNext := fun s hsp =>
            hinv.stackLtNext s (List.mem_of_mem_tail hsp)
          stackDesc := hinv.stackDesc.tail
          tailSeen := fun s hsp =>
            hsub s (hinv.tailSeen s (List.mem_of_mem_tail hsp))
          headFresh := by
            intro t htEq hnin
            exact absurd
              (hsub t (hinv.tailSeen t (List.mem_of_mem_head? htEq))) hnin
          zeroSeen := Or.inr hzero2
          nextPos := hinv.nextPos
          stackAcc := fun _ => hne2 }
    case neg =>
      rw [if_neg hr]
      exact
        { accSorted := hsorted2
          accLtNext := hlt2
          stackLtNext := hinv.stackLtNext
          stackDesc := hinv.stackDesc
          tailSeen := fun s hsp => hsub s (hinv.tailSeen s hsp)
          headFresh := by
            intro t htEq hnin
            have hzt : id0 = t := by
              cases hs : cs.stack with
              | nil => rw [hs] at htEq; cases htEq
              | cons b bs =>
                rw [hs] at htEq
                simp only [List.head?_cons, Option.some.injEq] at htEq
                rw [hid0, hs, htEq]
                rfl
            rw [← hzt] at hnin
            exact absurd hmemid hnin
          zeroSeen := Or.inr hzero2
          nextPos := hinv.nextPos
          stackAcc := fun _ => hne2 }

theorem annotateGo_fold_sorted (evs : List Event) :
    ∀ (cs : CallSt) (acc : List Nat), CallInv cs acc →
      ((annotateGo cs evs).foldl faStep acc).Pairwise (· < ·) := by
  induction evs with
  | nil =>
    intro cs acc hinv
    exact hinv.accSorted
  | cons ev rest ih =>
    intro cs acc hinv
    have hstep : (annotateGo cs (ev :: rest)).foldl faStep acc =
        (annotateGo (annotateOne ev cs).2 rest).foldl faStep
          (faStep acc (annotateOne ev cs).1) := rfl
    rw [hstep]
    exact ih _ _ (callInv_step ev cs acc hinv)

theorem callInv_init : CallInv ⟨[], 1⟩ [] := by
  refine ⟨?_, ?_, ?_, ?_, ?_, ?_, ?_, ?_, ?_⟩ <;> simp

theorem foldl_faStep_head (l : List Event) :
    ∀ (acc : List Nat), acc ≠ [] →
      (l.foldl faStep acc) ≠ [] ∧ (l.foldl faStep acc).head? = acc.head? := by
  induction l with
  | nil => intro acc h; exact ⟨h, rfl⟩
  | cons ev t ih =>
    intro acc h
    rw [List.foldl_cons]
    have hstep : faStep acc ev ≠ [] ∧ (faStep acc ev).head? = acc.head? := by
      unfold faStep
      split_ifs with hm
      · exact ⟨h, rfl⟩
      · cases acc with
        | nil => exact absurd rfl h
        | cons a t2 => exact ⟨by simp, by simp⟩
    obtain ⟨h1, h2⟩ := ih (faStep acc ev) hstep.1
    exact ⟨h1, h2.trans hstep.2⟩

theorem annotateGo_depth (evs : List Event) :
    ∀ (cs : CallSt) (i : Nat) (h : i < (annotateGo cs evs).length),
      ((annotateGo cs evs).get ⟨i, h⟩).call_depth =
        unmatchedFrom cs.stack.length (evs.take i) := by
  induction evs with
  | nil =>
    intro cs i h
    simp [annotateGo] at h
  | cons ev rest ih =>
    intro cs i h
    cases i with
    | zero =>
      show (annotateOne ev cs).1.call_depth = unmatchedFrom cs.stack.length []
      rw [annotateOne_depth]
      rfl
    | succ j =>
      have h2 : j < (annotateGo (annotateOne ev cs).2 rest).length := by
        have hlen : (annotateGo cs (ev :: rest)).length =
            (annotateGo (annotateOne ev cs).2 rest).length + 1 := rfl
        omega
      have hget : (annotateGo cs (ev :: rest)).get ⟨j + 1, h⟩ =
          (annotateGo (annotateOne ev cs).2 rest).get ⟨j, h2⟩ := rfl
      rw [hget, ih _ j h2, List.take_succ_cons]
      have hcons : unmatchedFrom cs.stack.length (ev :: rest.take j) =
          unmatchedFrom
            (if isCallInsn (pyLower ev.asm) then cs.stack.length + 1
             else if isReturnInsn (pyLower ev.asm) then cs.stack.length - 1
             else cs.stack.length)
            (rest.take j) := rfl
      rw [hcons]
      congr 1
      unfold annotateOne
      dsimp only
      split_ifs with hc hr
      · simp
      · simp [List.length_tail]
      · rfl

/-- Claim C8: the original claim states that the `call_id` values, in
order of first appearance, form an increasing sequence starting at 1; on
a trace beginning with a `bl`, the first event is annotated with the
caller's id 0, so the first-appearance sequence is `[0, 1]` and starts
at 0, not 1. -/
theorem call_annotation_cex :
    firstAppear (annotateCalls traceCall) = [0, 1] ∧
    (firstAppear (annotateCalls traceCall)).head? ≠ some 1 := by decide

/-- Claim C8 (amended): each annotated event's `call_depth` equals the
number of unmatched `bl`/`blx` calls among the events strictly before it
(a return decrementing only a positive count), the distinct `call_id`
values in order of first appearance form a strictly increasing sequence,
and on a non-empty trace that sequence starts at 0 (the caller's
context of the first event). -/
theorem call_annotation_amended (evs : List Event) :
    (∀ i (h : i < (annotateCalls evs).length),
      ((annotateCalls evs).get ⟨i, h⟩).call_depth =
        unmatchedCalls (evs.take i)) ∧
    (firstAppear (annotateCalls evs)).Pairwise (· < ·) ∧
    (evs ≠ [] → (firstAppear (annotateCalls evs)).head? = some 0) := by
  refine ⟨?_, ?_, ?_⟩
  · intro i h
    exact annotateGo_depth evs ⟨[], 1⟩ i h
  · exact annotateGo_fold_sorted evs ⟨[], 1⟩ [] callInv_init
  · intro hne
    cases evs with
    | nil => exact absurd rfl hne
    | cons ev rest =>
      have hstep : firstAppear (annotateCalls (ev :: rest)) =
          (annotateGo (annotateOne ev ⟨[], 1⟩).2 rest).foldl faStep
            (faStep [] (annotateOne ev ⟨[], 1⟩).1) := rfl
      have hfa0 : faStep [] (annotateOne ev ⟨[], 1⟩).1 = [0] := by
        unfold faStep
        rw [annotateOne_id]
        simp
      rw [hstep, hfa0]
      exact (foldl_faStep_head _ [0] (by simp)).2

theorem call_annotation_amended_w :
    (1 < (annotateCalls traceCall).length ∧ traceCall ≠ []) ∧
    ((annotateCalls traceCall).get ⟨1, by decide⟩).call_depth =
      unmatchedCalls (traceCall.take 1) ∧
    (firstAppear (annotateCalls traceCall)).Pairwise (· < ·) ∧
    (firstAppear (annotateCalls traceCall)).head? = some 0 :=
  ⟨⟨by decide, by decide⟩,
    (call_annotation_amended traceCall).1 1 (by decide),
    (call_annotation_amended traceCall).2.1,
    (call_annotation_amended traceCall).2.2 (by decide)⟩

theorem rmGet_rmSet_self (m : RegMap) (k : List Char) (v : Nat) :
    rmGet (rmSet m k v) k = some v := by
  induction m with
  | nil => simp [rmSet, rmGet]
  | cons p t ih =>
    obtain ⟨k2, v2⟩ := p
    unfold rmSet
    split_ifs with h
    · simp [rmGet]
    · unfold rmGet
      rw [if_neg h]
      exact ih

theorem rmGet_rmSet_ne (m : RegMap) (k k2 : List Char) (v : Nat)
    (h : k2 ≠ k) : rmGet (rmSet m k2 v) k = rmGet m k := by
  induction m with
  | nil => simp [rmSet, rmGet, h]
  | cons p t ih =>
    obtain ⟨k3, v3⟩ := p
    unfold rmSet
    split_ifs with h2
    · unfold rmGet
      rw [if_neg h, if_neg (h2 ▸ h)]
    · unfold rmGet
      split_ifs with h3
      · rfl
      · exact ih

theorem rmSet_eq_of_get (m : RegMap) (k : List Char) (v : Nat)
    (h : rmGet m k = some v) : rmSet m k v = m := by
  induction m with
  | nil => simp [rmGet] at h
  | cons p t ih =>
    obtain ⟨k2, v2⟩ := p
    unfold rmGet at h
    unfold rmSet
    split_ifs at h ⊢ with h2
    · rw [h2, Option.some.inj h]
    · rw [ih h]

theorem rmGet_append_left (m l : RegMap) (k : List Char)
    (h : (rmGet m k).isSome) : rmGet (m ++ l) k = rmGet m k := by
  induction m with
  | nil => simp [rmGet] at h
  | cons p t ih =>
    obtain ⟨k2, v2⟩ := p
    rw [List.cons_append]
    simp only [rmGet] at h ⊢
    split_ifs at h ⊢ with h2
    · rfl
    · exact ih h

theorem rmGet_append_self (m : RegMap) (k : List Char) (v : Nat)
    (h : rmGet m k = none) : rmGet (m ++ [(k, v)]) k = some v := by
  induction m with
  | nil => simp [rmGet]
  | cons p t ih =>
    obtain ⟨k2, v2⟩ := p
    rw [List.cons_append]
    simp only [rmGet] at h ⊢
    split_ifs at h ⊢ with h2
    all_goals exact ih h

theorem rmSetD_present (m : RegMap) (k : List Char) (v : Nat)
    (h : (rmGet m k).isSome) : rmSetD m k v = m := by
  unfold rmSetD
  rw [if_pos h]

theorem rmGet_isSome_rmSet (m : RegMap) (k k2 : List Char) (v : Nat)
    (h : (rmGet m k).isSome) : (rmGet (rmSet m k2 v) k).isSome := by
  by_cases h2 : k2 = k
  · rw [h2, rmGet_rmSet_self]
    rfl
  · rw [rmGet_rmSet_ne m k k2 v h2]
    exact h

theorem rmGet_isSome_rmSetD (m : RegMap) (k k2 : List Char) (v : Nat)
    (h : (rmGet m k).isSome) : (rmGet (rmSetD m k2 v) k).isSome := by
  unfold rmSetD
  split_ifs with h2
  · exact h
  · rw [rmGet_append_left m _ k h]
    exact h

theorem rmGet_rmSetD_self (m : RegMap) (k : List Char) (v : Nat) :
    (rmGet (rmSetD m k v) k).isSome := by
  unfold rmSetD
  split_ifs with h2
  · exact h2
  · cases hg : rmGet m k with
    | some w => rw [hg] at h2; exact absurd rfl h2
    | none => rw [rmGet_append_self m k v hg]; rfl

theorem readsFold_isSome (reads : List (List Char × Nat)) :
    ∀ (m : RegMap) (k : List Char), (rmGet m k).isSome →
      (rmGet (reads.foldl (fun m kv => rmSetD m kv.1 kv.2) m) k).isSome := by
  induction reads with
  | nil => intro m k h; exact h
  | cons p t ih =>
    intro m k h
    rw [List.foldl_cons]
    exact ih _ k (rmGet_isSome_rmSetD m k p.1 p.2 h)

theorem readsFold_mem_isSome (reads : List (List Char × Nat)) :
    ∀ (m : RegMap) (k : List Char), k ∈ reads.map Prod.fst →
      (rmGet (reads.foldl (fun m kv => rmSetD m kv.1 kv.2) m) k).isSome := by
  induction reads with
  | nil => intro m k h; cases h
  | cons p t ih =>
    intro m k h
    rw [List.foldl_cons]
    rw [List.map_cons] at h
    rcases List.mem_cons.mp h with rfl | hmem
    · exact readsFold_isSome t _ _ (rmGet_rmSetD_self m p.1 p.2)
    · exact ih _ k hmem

theorem writesFold_isSome (writes : List (List Char × Nat)) :
    ∀ (m : RegMap) (k : List Char), (rmGet m k).isSome →
      (rmGet (writes.foldl (fun m kv => rmSet m kv.1 kv.2) m) k).isSome := by
  induction writes with
  | nil => intro m k h; exact h
  | cons p t ih =>
    intro m k h
    rw [List.foldl_cons]
    exact ih _ k (rmGet_isSome_rmSet m k p.1 p.2 h)

theorem rmGet_writesFold_notin (writes : List (List Char × Nat)) :
    ∀ (m : RegMap) (k : List Char), k ∉ writes.map Prod.fst →
      rmGet (writes.foldl (fun m kv => rmSet m kv.1 kv.2) m) k = rmGet m k := by
  induction writes with
  | nil => intro m k _; rfl
  | cons p t ih =>
    intro m k h
    rw [List.map_cons] at h
    rw [List.foldl_cons, ih _ k (fun hm => h (List.mem_cons_of_mem _ hm)),
      rmGet_rmSet_ne m k p.1 p.2 (fun he => h (he ▸ List.mem_cons_self _ _))]

theorem rmGet_writesFold (writes : List (List Char × Nat)) :
    ∀ (m : RegMap) (kv : List Char × Nat),
      (writes.map Prod.fst).Nodup → kv ∈ writes →
      rmGet (writes.foldl (fun m kv => rmSet m kv.1 kv.2) m) kv.1 =
        some kv.2 := by
  induction writes with
  | nil => intro m kv _ h; cases h
  | cons p t ih =>
    intro m kv hnodup hmem
    rw [List.map_cons, List.nodup_cons] at hnodup
    rw [List.foldl_cons]
    rcases List.mem_cons.mp hmem with rfl | hmem2
    · rw [rmGet_writesFold_notin t _ kv.1 hnodup.1, rmGet_rmSet_self]
    · exact ih _ kv hnodup.2 hmem2

theorem readsFold_id (reads : List (List Char × Nat)) :
    ∀ (m : RegMap), (∀ k ∈ reads.map Prod.fst, (rmGet m k).isSome) →
      reads.foldl (fun m kv => rmSetD m kv.1 kv.2) m = m := by
  induction reads with
  | nil => intro m _; rfl
  | cons p t ih =>
    intro m h
    rw [List.foldl_cons,
      rmSetD_present m p.1 p.2 (h p.1 (by simp))]
    exact ih m (fun k hk => h k (by simp [hk]))

theorem writesFold_id (writes : List (List Char × Nat)) :
    ∀ (m : RegMap), (∀ kv ∈ writes, rmGet m kv.1 = some kv.2) →
      writes.foldl (fun m kv => rmSet m kv.1 kv.2) m = m := by
  induction writes with
  | nil => intro m _; rfl
  | cons p t ih =>
    intro m h
    rw [List.foldl_cons, rmSet_eq_of_get m p.1 p.2 (h p (by simp))]
    exact ih m (fun kv hkv => h kv (by simp [hkv]))

theorem rmGet_applyEvent (m : RegMap) (ev : Event) (kv : List Char × Nat)
    (hnodup : (ev.writes.map Prod.fst).Nodup) (hmem : kv ∈ ev.writes) :
    rmGet (applyEvent m ev) kv.1 = some kv.2 := by
  unfold applyEvent
  exact rmGet_writesFold ev.writes _ kv hnodup hmem

theorem applyEvent_post_id (m : RegMap) (ev : Event)
    (hnodup : (ev.writes.map Prod.fst).Nodup) :
    applyEvent (applyEvent m ev) ev = applyEvent m ev := by
  have hreads : ∀ k ∈ ev.reads.map Prod.fst,
      (rmGet (applyEvent m ev) k).isSome := by
    intro k hk
    unfold applyEvent
    exact writesFold_isSome ev.writes _ k (readsFold_mem_isSome ev.reads m k hk)
  conv_lhs => rw [applyEvent]
  rw [readsFold_id ev.reads (applyEvent m ev) hreads]
  exact writesFold_id ev.writes (applyEvent m ev)
    (fun kv hkv => rmGet_applyEvent m ev kv hnodup hkv)

theorem foldl_take_succ (events : List Event) (s : Nat) (ev : Event)
    (h : events.get? s = some ev) :
    (events.take (s + 1)).foldl applyEvent [] =
      applyEvent ((events.take s).foldl applyEvent []) ev := by
  rw [List.take_succ]
  rw [List.get?_eq_getElem?] at h
  rw [h]
  simp

theorem applyEvent_pure (events : List Event) (j : Nat) (ev : Event)
    (hwf : EventsWF events) (hj : events.get? j = some ev) :
    applyEvent (pureRegsAt events j) ev = pureRegsAt events j := by
  have hpure : pureRegsAt events j =
      applyEvent ((events.take j).foldl applyEvent []) ev :=
    foldl_take_succ events j ev hj
  rw [hpure, applyEvent_post_id]
  exact hwf.writesNodup ev (List.get?_mem hj)

theorem replayGo_fst (events : List Event) (sm : Bool) (mp : Nat) :
    ∀ (cnt s : Nat) (regs : RegMap) (cache : List (Nat × RegMap)) (mc : Bool),
      s + cnt ≤ events.length →
      regs = (events.take s).foldl applyEvent [] →
      (replayGo events sm mp (List.range' s cnt) (regs, cache, mc)).1 =
        (events.take (s + cnt)).foldl applyEvent [] := by
  intro cnt
  induction cnt with
  | zero =>
    intro s regs cache mc hle hregs
    simpa [replayGo] using hregs
  | succ c ih =>
    intro s regs cache mc hle hregs
    have hs : s < events.length := by omega
    obtain ⟨ev, hev⟩ : ∃ e, events.get? s = some e := by
      rw [List.get?_eq_getElem?]
      exact ⟨events[s], List.getElem?_eq_getElem hs⟩
    have hrange : List.range' s (c + 1) = s :: List.range' (s + 1) c := rfl
    rw [hrange]
    simp only [replayGo]
    rw [hev]
    have harith : s + (c + 1) = (s + 1) + c := by omega
    rw [harith]
    have hstep : applyEvent regs ev =
        (events.take (s + 1)).foldl applyEvent [] := by
      rw [hregs, ← foldl_take_succ events s ev hev]
    split_ifs
    · exact ih (s + 1) _ _ _ (by omega) hstep
    · exact ih (s + 1) _ _ _ (by omega) hstep

theorem replayGo_fst_post (events : List Event) (sm : Bool) (mp : Nat)
    (cnt s : Nat) (regs : RegMap) (cache : List (Nat × RegMap)) (mc : Bool)
    (hwf : EventsWF events) (hle : s + cnt ≤ events.length) (hcnt : 1 ≤ cnt)
    (hregs : regs = pureRegsAt events s) :
    (replayGo events sm mp (List.range' s cnt) (regs, cache, mc)).1 =
      pureRegsAt events (s + cnt - 1) := by
  obtain ⟨c, rfl⟩ : ∃ c, cnt = c + 1 := ⟨cnt - 1, by omega⟩
  have hs : s < events.length := by omega
  obtain ⟨ev, hev⟩ : ∃ e, events.get? s = some e := by
    rw [List.get?_eq_getElem?]
    exact ⟨events[s], List.getElem?_eq_getElem hs⟩
  have hrange : List.range' s (c + 1) = s :: List.range' (s + 1) c := rfl
  rw [hrange]
  simp only [replayGo]
  rw [hev]
  have hstep : applyEvent regs ev =
      (events.take (s + 1)).foldl applyEvent [] := by
    rw [hregs, applyEvent_pure events s ev hwf hev]
    rfl
  have harith : s + (c + 1) - 1 = (s + 1) + c - 1 := by omega
  rw [harith]
  have hfin : (s + 1) + c - 1 + 1 = (s + 1) + c := by omega
  split_ifs
  · rw [replayGo_fst events sm mp c (s + 1) _ _ _ (by omega) hstep]
    unfold pureRegsAt
    rw [hfin]
  · rw [replayGo_fst events sm mp c (s + 1) _ _ _ (by omega) hstep]
    unfold pureRegsAt
    rw [hfin]

theorem odGet_some_mem (c : List (Nat × RegMap)) (k : Nat) (m : RegMap)
    (h : odGet c k = some m) : (k, m) ∈ c := by
  induction c with
  | nil => simp [odGet] at h
  | cons p t ih =>
    obtain ⟨k2, v2⟩ := p
    unfold odGet at h
    split_ifs at h with h2
    · rw [h2, Option.some.inj h]
      exact List.mem_cons_self _ _
    · exact List.mem_cons_of_mem _ (ih h)

theorem odGet_none_of_ne (c : List (Nat × RegMap)) (k : Nat)
    (h : ∀ kv ∈ c, kv.1 ≠ k) : odGet c k = none := by
  induction c with
  | nil => rfl
  | cons p t ih =>
    unfold odGet
    rw [if_neg (h p (List.mem_cons_self _ _))]
    exact ih (fun kv hkv => h kv (List.mem_cons_of_mem _ hkv))

theorem odGet_isSome_of_mem_fst (c : List (Nat × RegMap)) (k : Nat)
    (h : k ∈ c.map Prod.fst) : ∃ m, odGet c k = some m := by
  induction c with
  | nil => cases h
  | cons p t ih =>
    rw [List.map_cons] at h
    unfold odGet
    by_cases h2 : p.1 = k
    · exact ⟨p.2, by rw [if_pos h2]⟩
    · rcases List.mem_cons.mp h with he | hmem
      · exact absurd he.symm h2
      · obtain ⟨m, hm⟩ := ih hmem
        exact ⟨m, by rw [if_neg h2]; exact hm⟩

theorem recBestKey_le (cache : List (Nat × RegMap)) (i : Nat) :
    recBestKey cache i ≤ (i : Int) := by
  unfold recBestKey
  have hgen : ∀ (l : List (Nat × RegMap)) (b : Int), b ≤ (i : Int) →
      l.foldl
        (fun (best : Int) kv =>
          if (kv.1 : Int) ≤ (i : Int) && (kv.1 : Int) > best then (kv.1 : Int)
          else best) b ≤ (i : Int) := by
    intro l
    induction l with
    | nil => intro b hb; exact hb
    | cons p t ih =>
      intro b hb
      rw [List.foldl_cons]
      apply ih
      split_ifs with h
      · simp only [Bool.and_eq_true, decide_eq_true_eq] at h
        exact h.1
      · exact hb
  exact hgen cache (-1) (by omega)

theorem recSeqStart_spec (cache : List (Nat × RegMap)) (recent : Int)
    (i : Nat) (k : Nat) (m : RegMap)
    (h : recSeqStart cache recent i = some (k, m)) :
    odGet cache k = some m ∧ k ≤ i := by
  unfold recSeqStart at h
  dsimp only at h
  split_ifs at h with hseq hle
  · cases hg : odGet cache recent.toNat with
    | none => rw [hg] at h; cases h
    | some m2 =>
      rw [hg] at h
      dsimp only at h
      obtain ⟨hk, hm⟩ := Prod.mk.inj (Option.some.inj h)
      subst hk
      subst hm
      refine ⟨hg, ?_⟩
      simp only [Bool.and_eq_true, decide_eq_true_eq, ge_iff_le] at hseq
      omega
  · cases hg : odGet cache recent.toNat with
    | none => rw [hg] at h; cases h
    | some m2 =>
      rw [hg] at h
      dsimp only at h
      cases h

theorem recBestStart_spec
    (cache : List (Nat × RegMap)) (recent : Int) (i : Nat) (k : Nat)
    (m : RegMap) (hmiss : odGet cache i = none)
    (h : recBestStart cache recent i = some (k, m)) :
    odGet cache k = some m ∧ k < i := by
  have hkm : odGet cache k = some m ∧ k ≤ i := by
    unfold recBestStart at h
    cases hseq : recSeqStart cache recent i with
    | some sm =>
      rw [hseq] at h
      obtain ⟨hk, hm⟩ := Prod.mk.inj (Option.some.inj h)
      obtain ⟨hg, hle⟩ := recSeqStart_spec cache recent i sm.1 sm.2
        (by rw [hseq])
      rw [← hk, ← hm]
      exact ⟨hg, hle⟩
    | none =>
      rw [hseq] at h
      dsimp only at h
      split_ifs at h with hge
      · cases hg : odGet cache (recBestKey cache i).toNat with
        | none => rw [hg] at h; cases h
        | some m2 =>
          rw [hg] at h
          have h2 : some ((recBestKey cache i).toNat, m2) = some (k, m) := h
          obtain ⟨hk, hm⟩ := Prod.mk.inj (Option.some.inj h2)
          subst hk
          subst hm
          refine ⟨hg, ?_⟩
          have := recBestKey_le cache i
          omega
  refine ⟨hkm.1, ?_⟩
  rcases Nat.lt_or_ge k i with hlt | hge
  · exact hlt
  · have hk : k = i := by omega
    rw [hk] at hkm
    rw [hmiss] at hkm
    cases hkm.1

theorem cpPick_mem (l : List Nat) : ∀ (tgt acc : Nat),
    cpPick l tgt acc = acc ∨
      (cpPick l tgt acc ∈ l ∧ cpPick l tgt acc ≤ tgt) := by
  induction l with
  | nil => intro tgt acc; left; rfl
  | cons ln t ih =>
    intro tgt acc
    unfold cpPick
    split_ifs with h
    · rcases ih tgt ln with he | ⟨hmem, hle⟩
      · right
        rw [he]
        exact ⟨List.mem_cons_self _ _, h⟩
      · right
        exact ⟨List.mem_cons_of_mem _ hmem, hle⟩
    · left; rfl

theorem countP_lt_pairwise (l : List Nat) (hl : l.Pairwise (· < ·)) :
    ∀ (j : Nat) (hj : j < l.length),
      l.countP (fun x => decide (x < l.get ⟨j, hj⟩)) = j := by
  induction l with
  | nil => intro j hj; cases hj
  | cons a t ih =>
    rw [List.pairwise_cons] at hl
    intro j hj
    cases j with
    | zero =>
      show (a :: t).countP (fun x => decide (x < a)) = 0
      rw [List.countP_cons]
      rw [List.countP_eq_zero.mpr (fun x hx => by
        simp only [decide_eq_true_eq]
        have := hl.1 x hx
        omega)]
      simp
    | succ j2 =>
      rw [List.countP_cons]
      have hj2 : j2 < t.length := by
        simp only [List.length_cons] at hj
        omega
      have hget : (a :: t).get ⟨j2 + 1, hj⟩ = t.get ⟨j2, hj2⟩ := rfl
      rw [hget]
      have hlt : a < t.get ⟨j2, hj2⟩ := hl.1 _ (List.get_mem t j2 hj2)
      rw [ih hl.2 j2 hj2]
      have hlt2 : a < t[j2] := hlt
      simp [hlt2]

theorem recStartPair_spec (events : List Event) (cps cache : List (Nat × RegMap))
    (recent : Int) (i : Nat) (hwf : EventsWF events)
    (hcache : CacheOK events cache) (hcps : CpOK events cps)
    (hi : i < events.length) (hmiss : odGet cache i = none) :
    ((recStartPair events cps cache recent i).1 =
        (events.take (recStartPair events cps cache recent i).2).foldl
          applyEvent [] ∧
      (recStartPair events cps cache recent i).2 ≤ i + 1) ∨
    ((recStartPair events cps cache recent i).2 ≤ i ∧
      (recStartPair events cps cache recent i).1 =
        pureRegsAt events (recStartPair events cps cache recent i).2) := by
  unfold recStartPair
  cases hbs : recBestStart cache recent i with
  | some km =>
    obtain ⟨k, m⟩ := km
    obtain ⟨hgetk, hk⟩ := recBestStart_spec cache recent i k m hmiss hbs
    left
    dsimp only
    constructor
    · exact (hcache (k, m) (odGet_some_mem _ _ _ hgetk)).2
    · omega
  | none =>
    dsimp only
    have hgetI : events.get? i = some (events.get ⟨i, hi⟩) := List.get?_eq_get hi
    have htl : ((events.get? i).map Event.line_no).getD 0 =
        (events.get ⟨i, hi⟩).line_no := by
      rw [hgetI]
      rfl
    set cpl := cpPick (sortNat (cps.map Prod.fst))
      (((events.get? i).map Event.line_no).getD 0) 0 with hcpl
    rcases cpPick_mem (sortNat (cps.map Prod.fst))
        (((events.get? i).map Event.line_no).getD 0) 0 with hcp | ⟨hmem, hle⟩
    · rw [← hcpl] at hcp
      rw [hcp]
      left
      have h0 : odGet cps 0 = none := by
        apply odGet_none_of_ne
        intro kv hkv
        obtain ⟨j, evj, hj, hline, _⟩ := hcps kv hkv
        have := hwf.linesPos evj (List.get?_mem hj)
        omega
      rw [h0]
      simp
    · rw [← hcpl] at hmem hle
      have hmem2 : cpl ∈ cps.map Prod.fst := (mem_sortNat _ _).mp hmem
      obtain ⟨m, hgetm⟩ := odGet_isSome_of_mem_fst cps _ hmem2
      obtain ⟨j, evj, hj, hline, hpure⟩ :=
        hcps _ (odGet_some_mem _ _ _ hgetm)
      dsimp only at hline hpure
      have hpos : 1 ≤ evj.line_no := hwf.linesPos evj (List.get?_mem hj)
      have hcplne : cpl ≠ 0 := by omega
      rw [if_pos hcplne, hgetm]
      right
      dsimp only
      have hjlen : j < events.length := (List.get?_eq_some.mp hj).1
      have hpw : (events.map Event.line_no).Pairwise (· < ·) :=
        List.chain'_iff_pairwise.mp hwf.linesMono
      have hjlen2 : j < (events.map Event.line_no).length := by
        rw [List.length_map]
        exact hjlen
      have hgetline : (events.map Event.line_no).get ⟨j, hjlen2⟩ =
          evj.line_no := by
        rw [List.get_map]
        congr 1
        have := List.get?_eq_get hjlen
        rw [hj] at this
        exact (Option.some.inj this).symm
      have hcount : (events.map Event.line_no).countP
          (fun ln => decide (ln < cpl)) = j := by
        rw [← hline, ← hgetline]
        exact countP_lt_pairwise _ hpw j hjlen2
      rw [hcount]
      have hji : j ≤ i := by
        by_contra hcon
        have hilen2 : i < (events.map Event.line_no).length := by
          rw [List.length_map]
          exact hi
        have hlt := (List.pairwise_iff_get.mp hpw) ⟨i, hilen2⟩ ⟨j, hjlen2⟩
          (by simpa using Nat.lt_of_not_le hcon)
        rw [hgetline] at hlt
        have hgeti : (events.map Event.line_no).get ⟨i, hilen2⟩ =
            (events.get ⟨i, hi⟩).line_no := by
          rw [List.get_map]
        rw [hgeti] at hlt
        rw [htl] at hle
        omega
      exact ⟨hji, hpure⟩

theorem reconstructRegsAt_fst (events : List Event)
    (cps : List (Nat × RegMap)) (st : RecSt) (i : Nat)
    (hwf : EventsWF events) (hcache : CacheOK events st.cache)
    (hcps : CpOK events cps) (hi : i < events.length) :
    (reconstructRegsAt events cps st i).1 = pureRegsAt events i := by
  cases hevs : events with
  | nil =>
    rw [hevs] at hi
    simp at hi
  | cons e0 tl =>
    subst hevs
    unfold reconstructRegsAt
    dsimp only
    have hmin : min i ((e0 :: tl).length - 1) = i := by
      simp only [List.length_cons] at hi ⊢
      omega
    rw [hmin]
    cases hhit : odGet st.cache i with
    | some m =>
      dsimp only
      exact (hcache (i, m) (odGet_some_mem _ _ _ hhit)).2
    | none =>
      dsimp only
      rcases recStartPair_spec (e0 :: tl) cps st.cache st.recent i hwf hcache
          hcps hi hhit with ⟨hregs, hle⟩ | ⟨hle, hregs⟩
      · rw [replayGo_fst (e0 :: tl) _ _ (i + 1 - (recStartPair (e0 :: tl) cps
          st.cache st.recent i).2) (recStartPair (e0 :: tl) cps st.cache
          st.recent i).2 _ _ _ (by omega) hregs]
        have harith : (recStartPair (e0 :: tl) cps st.cache st.recent i).2 +
            (i + 1 - (recStartPair (e0 :: tl) cps st.cache st.recent i).2) =
            i + 1 := by omega
        rw [harith]
        rfl
      · rw [replayGo_fst_post (e0 :: tl) _ _ (i + 1 - (recStartPair (e0 :: tl) cps
          st.cache st.recent i).2) (recStartPair (e0 :: tl) cps st.cache
          st.recent i).2 _ _ _ hwf (by omega) (by omega) hregs]
        have harith : (recStartPair (e0 :: tl) cps st.cache st.recent i).2 +
            (i + 1 - (recStartPair (e0 :: tl) cps st.cache st.recent i).2) - 1 =
            i := by omega
        rw [harith]

/-- Claim C6: on every code path of the reconstructor (LRU cache hit,
sequential acceleration from a recent cached state, replay from the best
cached state, from the latest checkpoint, or from the empty state), the
register map returned for index `i` maps every register written by event
`i` to its written value. -/
theorem regs_at_superset_writes (events : List Event)
    (cps : List (Nat × RegMap)) (st : RecSt) (i : Nat) (ev : Event)
    (hwf : EventsWF events) (hcache : CacheOK events st.cache)
    (hcps : CpOK events cps) (hev : events.get? i = some ev) :
    ∀ kv ∈ ev.writes,
      rmGet (reconstructRegsAt events cps st i).1 kv.1 = some kv.2 := by
  intro kv hkv
  have hi : i < events.length := (List.get?_eq_some.mp hev).1
  rw [reconstructRegsAt_fst events cps st i hwf hcache hcps hi]
  show rmGet ((events.take (i + 1)).foldl applyEvent []) kv.1 = some kv.2
  rw [foldl_take_succ events i ev hev]
  exact rmGet_applyEvent _ ev kv (hwf.writesNodup ev (List.get?_mem hev)) hkv

theorem regs_at_superset_writes_w :
    (([eorEv].get? 0 = some eorEv) ∧ ("x0".data, 0) ∈ eorEv.writes) ∧
    rmGet (reconstructRegsAt [eorEv] [] ⟨[], -1⟩ 0).1 "x0".data = some 0 :=
  ⟨⟨rfl, by decide⟩,
    regs_at_superset_writes [eorEv] [] ⟨[], -1⟩ 0 eorEv
      ⟨by decide, by decide, by simp, by decide⟩
      (fun kv hkv => absurd hkv (List.not_mem_nil kv))
      (fun kv hkv => absurd hkv (List.not_mem_nil kv))
      rfl ("x0".data, 0) (by decide)⟩

end UTV
